import Mathlib

/-!
Verification of the grid-combat engine in game.py: wall generation
(recursive-backtracker maze carve plus a noise pass), the movement-legality
oracle, and attack/knockback resolution.  Definitions are shallow embeddings
of the Python source; randomness is modelled by explicit oracles (a shuffle
function per cell, wall-break predicates, and a natural-number stream for
random.choice).
-/

namespace BoardGame

/-- The four carve directions, in the source order up, down, left, right. -/
inductive Dir : Type
  | up
  | down
  | left
  | right
deriving DecidableEq

/-- In-bounds orthogonal neighbour of a cell in a given direction, mirroring
is_within_bounds(next_row, next_col) on the integer coordinates. -/
def neighborCell (size : Nat) (r c : Nat) : Dir → Option (Nat × Nat)
  | Dir.up => if 1 ≤ r ∧ r - 1 < size ∧ c < size then some (r - 1, c) else none
  | Dir.down => if r + 1 < size ∧ c < size then some (r + 1, c) else none
  | Dir.left => if 1 ≤ c ∧ r < size ∧ c - 1 < size then some (r, c - 1) else none
  | Dir.right => if r < size ∧ c + 1 < size then some (r, c + 1) else none

/-- State of generate_walls: the two wall matrices (as total boolean
functions on indices) and the visited set of the depth-first carver.
vw r c is the wall between (r,c) and (r,c+1); hw r c the wall between
(r,c) and (r+1,c). -/
structure CarveSt where
  vw : Nat → Nat → Bool
  hw : Nat → Nat → Bool
  visited : Nat × Nat → Bool

/-- Mark a cell visited. -/
def CarveSt.visit (s : CarveSt) (rc : Nat × Nat) : CarveSt :=
  { s with visited := fun p => if p = rc then true else s.visited p }

/-- Clear the wall between cell (r,c) and its neighbour in direction d,
exactly as generate_maze writes the wall matrices. -/
def CarveSt.clearWall (s : CarveSt) (r c : Nat) : Dir → CarveSt
  | Dir.up => { s with hw := fun a b => if a = r - 1 ∧ b = c then false else s.hw a b }
  | Dir.down => { s with hw := fun a b => if a = r ∧ b = c then false else s.hw a b }
  | Dir.left => { s with vw := fun a b => if a = r ∧ b = c - 1 then false else s.vw a b }
  | Dir.right => { s with vw := fun a b => if a = r ∧ b = c then false else s.vw a b }

/-- Fueled depth-first maze carver generate_maze.  The shuffle oracle sh
gives, per cell, the order in which the four directions are tried (the
source shuffles the fixed four-element list, so the order is always a
permutation); each call marks its cell visited, then for each direction
whose neighbour is in bounds and unvisited it clears the joining wall and
recurses.  Fuel bounds the recursion depth; size * size fuel is enough. -/
def carve (size : Nat) (sh : Nat × Nat → List Dir) : Nat → Nat × Nat → CarveSt → CarveSt
  | 0, _, s => s
  | fuel + 1, rc, s =>
    (sh rc).foldl
      (fun t d =>
        match neighborCell size rc.1 rc.2 d with
        | none => t
        | some nb =>
          if t.visited nb = true then t else carve size sh fuel nb (t.clearWall rc.1 rc.2 d))
      (s.visit rc)

/-- One step of the direction loop inside the carver (named so the foldl in
carve can be reasoned about). -/
def carveStep (size : Nat) (sh : Nat × Nat → List Dir) (fuel : Nat) (rc : Nat × Nat)
    (t : CarveSt) (d : Dir) : CarveSt :=
  match neighborCell size rc.1 rc.2 d with
  | none => t
  | some nb =>
    if t.visited nb = true then t else carve size sh fuel nb (t.clearWall rc.1 rc.2 d)

/-- Initial carver state: every wall present, nothing visited. -/
def initCarve : CarveSt :=
  { vw := fun _ _ => true, hw := fun _ _ => true, visited := fun _ => false }

/-- generate_walls: carve a spanning tree from (0,0), then the noise pass,
which clears wall (r,c) exactly when it was present and the corresponding
random draw fell below the break chance (modelled by the predicates brv,
brh); the pass never adds a wall. -/
def generate_walls (size : Nat) (sh : Nat × Nat → List Dir) (brv brh : Nat → Nat → Bool) :
    (Nat → Nat → Bool) × (Nat → Nat → Bool) :=
  let s := carve size sh (size * size) (0, 0) initCarve
  (fun r c => s.vw r c && ! brv r c, fun r c => s.hw r c && ! brh r c)

/-- The size × size grid as a finite set of cells. -/
def gridCells (size : Nat) : Finset (Nat × Nat) :=
  Finset.range size ×ˢ Finset.range size

/-- Number of in-bounds cells not yet visited. -/
def unvisitedCount (size : Nat) (s : CarveSt) : Nat :=
  ((gridCells size).filter (fun p => s.visited p = false)).card

/-- Evolution order on carver states: visited only grows and walls are only
ever cleared. -/
def StLe (s t : CarveSt) : Prop :=
  (∀ p, s.visited p = true → t.visited p = true) ∧
  (∀ a b, t.vw a b = true → s.vw a b = true) ∧
  (∀ a b, t.hw a b = true → s.hw a b = true)

/-- The shuffle oracle offers every direction at every cell (true of any
permutation of the four directions, as produced by random.shuffle). -/
def Covers (sh : Nat × Nat → List Dir) : Prop := ∀ p d, d ∈ sh p

/-- Two in-bounds cells are orthogonally adjacent with no wall between
them, for the given wall matrices. -/
def adjFree (size : Nat) (vw hw : Nat → Nat → Bool) (p q : Nat × Nat) : Prop :=
  p.1 < size ∧ p.2 < size ∧ q.1 < size ∧ q.2 < size ∧
  ((p.1 = q.1 ∧ ((q.2 = p.2 + 1 ∧ vw p.1 p.2 = false) ∨ (p.2 = q.2 + 1 ∧ vw p.1 q.2 = false))) ∨
   (p.2 = q.2 ∧ ((q.1 = p.1 + 1 ∧ hw p.1 p.2 = false) ∨ (p.1 = q.1 + 1 ∧ hw q.1 p.2 = false))))

/-- Reachability through wall-free orthogonal steps. -/
inductive ReachFree (size : Nat) (vw hw : Nat → Nat → Bool) : Nat × Nat → Nat × Nat → Prop
  | refl (p : Nat × Nat) : ReachFree size vw hw p p
  | tail {p q r : Nat × Nat} :
      ReachFree size vw hw p q → adjFree size vw hw q r → ReachFree size vw hw p r

/-- Postcondition of one carver call rooted at rc: the state only evolves,
rc ends visited, every freshly visited cell has all its in-bounds
neighbours visited, and every freshly visited cell is connected to rc
through the cleared walls. -/
def CarvePost (size : Nat) (rc : Nat × Nat) (s t : CarveSt) : Prop :=
  StLe s t ∧ t.visited rc = true ∧
  (∀ p, s.visited p = false → t.visited p = true →
    ∀ d nb, neighborCell size p.1 p.2 d = some nb → t.visited nb = true) ∧
  (∀ p, s.visited p = false → t.visited p = true → ReachFree size t.vw t.hw rc p)

/-- A combatant, with the attribute record of the Player dataclass (the
name and icon strings are omitted; identity is the integer id). -/
structure Player where
  id : Nat
  position : Int × Int
  max_health : Int
  health : Int
  damage : Int
  knockback_strength : Int
  knockback_resistance : Int
  gold : Int
  gold_per_turn : Int
  gold_from_pickup : Int
deriving DecidableEq

/-- is_alive: health strictly positive. -/
def Player.is_alive (p : Player) : Bool := decide (0 < p.health)

/-- The game state: board size, the two wall matrices, the roster, the gold
pickups still on the board, and whose turn it is. -/
structure Game where
  board_size : Nat
  vertical_walls : Nat → Nat → Bool
  horizontal_walls : Nat → Nat → Bool
  players : List Player
  gold_positions : List (Int × Int)
  current_player_index : Nat

/-- is_cardinal_move_blocked: wall test for a same-row or same-column pair;
any other pair reports blocked. -/
def Game.is_cardinal_move_blocked (g : Game) (fr fc tr tc : Int) : Bool :=
  if fr = tr then g.vertical_walls fr.toNat (min fc tc).toNat
  else if fc = tc then g.horizontal_walls (min fr tr).toNat fc.toNat
  else true

/-- is_diagonal_path_blocked: blocked unless one of the two L-shaped corner
routes is fully clear. -/
def Game.is_diagonal_path_blocked (g : Game) (fr fc tr tc : Int) : Bool :=
  let mid1 := !g.is_cardinal_move_blocked fr fc fr tc && !g.is_cardinal_move_blocked fr tc tr tc
  let mid2 := !g.is_cardinal_move_blocked fr fc tr fc && !g.is_cardinal_move_blocked tr fc tr tc
  !(mid1 || mid2)

/-- is_any_move_blocked: route diagonal shapes to the corner-path check and
everything else to the cardinal check. -/
def Game.is_any_move_blocked (g : Game) (fr fc tr tc : Int) : Bool :=
  if (fr - tr).natAbs = 1 ∧ (fc - tc).natAbs = 1 then g.is_diagonal_path_blocked fr fc tr tc
  else g.is_cardinal_move_blocked fr fc tr tc

/-- is_valid_destination: in bounds, not occupied by an alive combatant,
and not wall-blocked. -/
def Game.is_valid_destination (g : Game) (tr tc : Int) (fp : Int × Int) : Bool :=
  if 0 ≤ tr ∧ tr < (g.board_size : Int) ∧ 0 ≤ tc ∧ tc < (g.board_size : Int) then
    if g.players.any (fun p => decide (p.position = (tr, tc)) && p.is_alive) then false
    else if g.is_any_move_blocked fp.1 fp.2 tr tc then false
    else true
  else false

/-- In-place update of the i-th list element, as Python list mutation. -/
def modifyAt (l : List Player) (i : Nat) (f : Player → Player) : List Player :=
  match l, i with
  | [], _ => []
  | p :: ps, 0 => f p :: ps
  | p :: ps, n + 1 => p :: modifyAt ps n f

/-- Set the position of player i. -/
def setPlayerPos (g : Game) (i : Nat) (pos : Int × Int) : Game :=
  { g with players := modifyAt g.players i (fun p => { p with position := pos }) }

/-- Subtract damage from the health of player i. -/
def damagePlayer (g : Game) (i : Nat) (dmg : Int) : Game :=
  { g with players := modifyAt g.players i (fun p => { p with health := p.health - dmg }) }

/-- The fallback option list of a blocked diagonal push from (cr, cc)
along (dr, dc): the legal row option first, then the legal column
option, exactly as apply_attacks appends them. -/
def knockOptions (g : Game) (cr cc dr dc : Int) : List (Int × Int) :=
  (if g.is_valid_destination (cr + dr) cc (cr, cc) = true then [(cr + dr, cc)] else []) ++
  (if g.is_valid_destination cr (cc + dc) (cr, cc) = true then [(cr, cc + dc)] else [])

/-- The knockback loop of apply_attacks for the defender at roster index
di: each iteration pushes along the carried vector (dr, dc) when legal;
on a blocked diagonal push it collects the legal orthogonal alternatives
(row option first, then column option), picks one by the random stream
rng (random.choice), moves there and adopts that direction; otherwise it
stops, skipping the remaining iterations.  k counts the random draws. -/
def knockLoop (rng : Nat → Nat) (di : Nat) : Nat → Game → Nat → Int → Int → Game × Nat
  | 0, g, k, _, _ => (g, k)
  | fuel + 1, g, k, dr, dc =>
    match g.players[di]? with
    | none => (g, k)
    | some defender =>
      let cr := defender.position.1
      let cc := defender.position.2
      if g.is_valid_destination (cr + dr) (cc + dc) (cr, cc) = true then
        knockLoop rng di fuel (setPlayerPos g di (cr + dr, cc + dc)) k dr dc
      else if dr ≠ 0 ∧ dc ≠ 0 then
        let options := knockOptions g cr cc dr dc
        if options = [] then (g, k)
        else
          let chosen := options.getD (rng k % options.length) (0, 0)
          knockLoop rng di fuel (setPlayerPos g di chosen) (k + 1) (chosen.1 - cr) (chosen.2 - cc)
      else (g, k)

/-- Body of the defender loop of apply_attacks for roster index di, given
the attacker snapshot (position (ar, ac), id, damage and knockback already
scaled by the stay-in-place doubling). -/
def processDefender (ar ac dmg kb : Int) (atkId : Nat) (rng : Nat → Nat)
    (acc : Game × Nat) (di : Nat) : Game × Nat :=
  match acc.1.players[di]? with
  | none => acc
  | some defender =>
    let kd := max 0 (kb - defender.knockback_resistance)
    if defender.id = atkId ∨ defender.is_alive = false then acc
    else if 1 < (ar - defender.position.1).natAbs ∨ 1 < (ac - defender.position.2).natAbs then acc
    else if acc.1.is_any_move_blocked ar ac defender.position.1 defender.position.2 = true then acc
    else
      knockLoop rng di kd.toNat (damagePlayer acc.1 di dmg)
        acc.2 (defender.position.1 - ar) (defender.position.2 - ac)

/-- apply_attacks: damage and knockback are doubled when the attacker did
not move; every roster entry is processed in order against the attacker
snapshot taken before the loop. -/
def apply_attacks (g : Game) (attacker : Player) (moved : Bool) (rng : Nat → Nat) : Game :=
  let dmg := if moved then attacker.damage else attacker.damage * 2
  let kb := if moved then attacker.knockback_strength else attacker.knockback_strength * 2
  ((List.range g.players.length).foldl
    (processDefender attacker.position.1 attacker.position.2 dmg kb attacker.id rng) (g, 0)).1

/-- The eight movement keys. -/
inductive Key : Type
  | w
  | x
  | a
  | d
  | q
  | e
  | z
  | c
deriving DecidableEq

/-- MOVEMENT_KEYS: key to (delta row, delta column). -/
def movementKeys : Key → Int × Int
  | Key.w => (-1, 0)
  | Key.x => (1, 0)
  | Key.a => (0, -1)
  | Key.d => (0, 1)
  | Key.q => (-1, -1)
  | Key.e => (-1, 1)
  | Key.z => (1, -1)
  | Key.c => (1, 1)

/-- move_current_player: returns the new state and True on success; on a
failed destination check it returns the unchanged state and False.  On
success the mover picks up any gold pickup on the destination cell. -/
def move_current_player (g : Game) (key : Key) : Game × Bool :=
  match g.players[g.current_player_index]? with
  | none => (g, false)
  | some player =>
    let d := movementKeys key
    let nr := player.position.1 + d.1
    let nc := player.position.2 + d.2
    if g.is_valid_destination nr nc player.position = true then
      if (nr, nc) ∈ g.gold_positions then
        ({ g with
            players := modifyAt g.players g.current_player_index
              (fun p => { p with position := (nr, nc), gold := p.gold + p.gold_from_pickup }),
            gold_positions := g.gold_positions.erase (nr, nc) }, true)
      else
        ({ g with
            players := modifyAt g.players g.current_player_index
              (fun p => { p with position := (nr, nc) }) }, true)
    else (g, false)

/-- Starting stats of PLAYER_STARTING_STATS with the module constants. -/
def initPlayer (i : Nat) (pos : Int × Int) : Player :=
  { id := i, position := pos, max_health := 5, health := 5, damage := 1,
    knockback_strength := 2, knockback_resistance := 0, gold := 0,
    gold_per_turn := 1, gold_from_pickup := 4 }

/-- Game.__init__ with BOARD_SIZE = 10: two players at the opposite
corners, gold pickups on some cells, and generated walls; the random
sources (shuffle order, noise draws, gold sample) are parameters. -/
def initGame (sh : Nat × Nat → List Dir) (brv brh : Nat → Nat → Bool)
    (gold : List (Int × Int)) : Game :=
  { board_size := 10,
    vertical_walls := (generate_walls 10 sh brv brh).1,
    horizontal_walls := (generate_walls 10 sh brv brh).2,
    players := [initPlayer 0 (0, 0), initPlayer 1 (9, 9)],
    gold_positions := gold,
    current_player_index := 0 }

/-- Game states reachable from an initial state through moves, attack
resolutions, and turn-index changes. -/
inductive ReachableSt : Game → Prop
  | init (sh : Nat × Nat → List Dir) (brv brh : Nat → Nat → Bool) (gold : List (Int × Int)) :
      ReachableSt (initGame sh brv brh gold)
  | move (g : Game) (key : Key) : ReachableSt g → ReachableSt (move_current_player g key).1
  | attack (g : Game) (atk : Player) (moved : Bool) (rng : Nat → Nat) :
      ReachableSt g → ReachableSt (apply_attacks g atk moved rng)
  | setTurn (g : Game) (i : Nat) : ReachableSt g →
      ReachableSt { g with current_player_index := i }

/-- Occupancy exclusivity: no two alive combatants share a coordinate. -/
def PlayersExclusive (g : Game) : Prop :=
  ∀ (i j : Nat) (pa pb : Player), i ≠ j → g.players[i]? = some pa → g.players[j]? = some pb →
    pa.is_alive = true → pb.is_alive = true → pa.position ≠ pb.position

/-- Chebyshev distance between two cells. -/
def chebDist (a b : Int × Int) : Nat :=
  max (a.1 - b.1).natAbs (a.2 - b.2).natAbs

/-- Sign of an integer, the per-axis unit-vector component. -/
def sgn (x : Int) : Int := if 0 < x then 1 else if x < 0 then -1 else 0

/-- Modelled from the spec: the knockback loop as the claim describes it,
with the straight push target recomputed every iteration as the defender's
current cell plus the unit vector from the attacker's cell (ar, ac) to the
defender's current cell; the fallback structure is unchanged. -/
def freshKnockLoop (rng : Nat → Nat) (di : Nat) (ar ac : Int) : Nat → Game → Nat → Game × Nat
  | 0, g, k => (g, k)
  | fuel + 1, g, k =>
    match g.players[di]? with
    | none => (g, k)
    | some defender =>
      let cr := defender.position.1
      let cc := defender.position.2
      let dr := sgn (cr - ar)
      let dc := sgn (cc - ac)
      if g.is_valid_destination (cr + dr) (cc + dc) (cr, cc) = true then
        freshKnockLoop rng di ar ac fuel (setPlayerPos g di (cr + dr, cc + dc)) k
      else if dr ≠ 0 ∧ dc ≠ 0 then
        let options := knockOptions g cr cc dr dc
        if options = [] then (g, k)
        else
          let chosen := options.getD (rng k % options.length) (0, 0)
          freshKnockLoop rng di ar ac fuel (setPlayerPos g di chosen) (k + 1)
      else (g, k)

/-- The spec data-model wall query for axis-aligned adjacent cells: the
wall matrix entry of the shared edge. -/
def wallBetween (g : Game) (a b : Int × Int) : Bool :=
  if a.1 = b.1 then g.vertical_walls a.1.toNat (min a.2 b.2).toNat
  else if a.2 = b.2 then g.horizontal_walls (min a.1 b.1).toNat a.2.toNat
  else true

/-- Corner path 1 of a diagonal step, through the cell sharing the source
row and the target column: clear when both orthogonal segments are
wall-free. -/
def cornerPath1Clear (g : Game) (f t : Int × Int) : Prop :=
  wallBetween g f (f.1, t.2) = false ∧ wallBetween g (f.1, t.2) t = false

/-- Corner path 2 of a diagonal step, through the cell sharing the source
column and the target row. -/
def cornerPath2Clear (g : Game) (f t : Int × Int) : Prop :=
  wallBetween g f (t.1, f.2) = false ∧ wallBetween g (t.1, f.2) t = false

/-- A knockback state is stuck for direction (dr, dc) when the straight
push is illegal and no diagonal fallback is available: the push is
orthogonal, or both orthogonal alternatives are illegal. -/
def KnockStuck (g : Game) (p : Player) (dr dc : Int) : Prop :=
  g.is_valid_destination (p.position.1 + dr) (p.position.2 + dc) p.position = false ∧
  (dr = 0 ∨ dc = 0 ∨
    (g.is_valid_destination (p.position.1 + dr) p.position.2 p.position = false ∧
     g.is_valid_destination p.position.1 (p.position.2 + dc) p.position = false))

/-- A constant rng stream for concrete runs. -/
def rngZero : Nat → Nat := fun _ => 0

/-- A fixed shuffle oracle offering the directions in source order. -/
def shConst : Nat × Nat → List Dir := fun _ => [Dir.up, Dir.down, Dir.left, Dir.right]

/-- A noise predicate that never breaks a wall. -/
def brNone : Nat → Nat → Bool := fun _ _ => false

/-- Players and the board of the C5 scenario: a 4 by 4 board with walls
right of (1,1) and right of (2,1), attacker at the corner, defender
diagonally adjacent. -/
def atkC5 : Player :=
  { id := 0, position := (0, 0), max_health := 5, health := 5, damage := 1,
    knockback_strength := 2, knockback_resistance := 0, gold := 0,
    gold_per_turn := 1, gold_from_pickup := 4 }

/-- Defender of the C5 scenario. -/
def dfdC5 : Player := { atkC5 with id := 1, position := (1, 1) }

/-- Concrete game of the C5 scenario. -/
def gC5 : Game :=
  { board_size := 4,
    vertical_walls := fun r c => decide ((r, c) = (1, 1) ∨ (r, c) = (2, 1)),
    horizontal_walls := fun _ _ => false,
    players := [atkC5, dfdC5],
    gold_positions := [],
    current_player_index := 0 }

/-- Open 4 by 4 board for the straight-run witness: no walls at all. -/
def gC5W : Game :=
  { gC5 with vertical_walls := fun _ _ => false }

/-- Open 6 by 6 board with the defender orthogonally adjacent, for the
stationary-attack knockback scenario. -/
def gC6 : Game :=
  { board_size := 6,
    vertical_walls := fun _ _ => false,
    horizontal_walls := fun _ _ => false,
    players := [atkC5, { atkC5 with id := 1, position := (0, 1) }],
    gold_positions := [],
    current_player_index := 0 }

/-- Open 3 by 3 board with a single player far from the tested cells. -/
def gC3 : Game :=
  { board_size := 3,
    vertical_walls := fun _ _ => false,
    horizontal_walls := fun _ _ => false,
    players := [{ atkC5 with position := (2, 2) }],
    gold_positions := [],
    current_player_index := 0 }

/-- Two-cell board with a wall right of (0,0) and its occupant there. -/
def gC9 : Game :=
  { board_size := 2,
    vertical_walls := fun r c => decide ((r, c) = (0, 0)),
    horizontal_walls := fun _ _ => false,
    players := [atkC5],
    gold_positions := [(1, 1)],
    current_player_index := 0 }

/-- Defender used on the gC4 and gC6 boards. -/
def dfdAt01 : Player := { atkC5 with id := 1, position := (0, 1) }

/-- Board for the blocked-attack scenario: defender adjacent behind the
wall right of (0,0). -/
def gC4 : Game :=
  { gC9 with players := [atkC5, dfdAt01] }

/-- Fields of the game other than the roster are untouched by the
mutators; also the roster length is preserved.  This bundles the frame
facts needed across the attack-resolution proofs. -/
def SameFrame (a b : Game) : Prop :=
  a.board_size = b.board_size ∧ a.vertical_walls = b.vertical_walls ∧
  a.horizontal_walls = b.horizontal_walls ∧ a.gold_positions = b.gold_positions ∧
  a.current_player_index = b.current_player_index ∧ a.players.length = b.players.length

/-- Effects summary of the attack-resolution steps at defender index di:
the frame is preserved, players other than the defender are untouched,
and every player keeps its gold; the knockback loop additionally keeps
every health and alive status (the inner conjuncts hold for the loop
alone; the defender step may lower the defender's health). -/
def KnockEff (di : Nat) (g2 g : Game) : Prop :=
  SameFrame g2 g ∧
  (∀ (j : Nat), j ≠ di → g2.players[j]? = g.players[j]?) ∧
  (∀ (j : Nat), (g2.players[j]?).map Player.gold = (g.players[j]?).map Player.gold) ∧
  (∀ (j : Nat), (g2.players[j]?).map Player.health = (g.players[j]?).map Player.health) ∧
  (∀ (j : Nat), (g2.players[j]?).map Player.is_alive = (g.players[j]?).map Player.is_alive)

end BoardGame

namespace BoardGame

/-! ### List update lemmas -/

theorem modifyAt_length (l : List Player) (i : Nat) (f : Player → Player) :
    (modifyAt l i f).length = l.length := by
  induction l generalizing i with
  | nil => simp [modifyAt]
  | cons p ps ih =>
    cases i with
    | zero => simp [modifyAt]
    | succ n => simp [modifyAt, ih]

theorem modifyAt_getElem?_self (l : List Player) (i : Nat) (f : Player → Player) (p : Player)
    (h : l[i]? = some p) : (modifyAt l i f)[i]? = some (f p) := by
  induction l generalizing i with
  | nil => simp at h
  | cons q qs ih =>
    cases i with
    | zero => simp_all [modifyAt]
    | succ n =>
      simp only [List.getElem?_cons_succ] at h
      simpa [modifyAt] using ih n h

theorem modifyAt_getElem?_ne (l : List Player) (i j : Nat) (f : Player → Player)
    (h : j ≠ i) : (modifyAt l i f)[j]? = l[j]? := by
  induction l generalizing i j with
  | nil => simp [modifyAt]
  | cons q qs ih =>
    cases i with
    | zero =>
      cases j with
      | zero => exact absurd rfl h
      | succ m => simp [modifyAt]
    | succ n =>
      cases j with
      | zero => simp [modifyAt]
      | succ m => simpa [modifyAt] using ih n m (fun e => h (by omega))

theorem modifyAt_none (l : List Player) (i : Nat) (f : Player → Player)
    (h : l[i]? = none) : modifyAt l i f = l := by
  induction l generalizing i with
  | nil => simp [modifyAt]
  | cons q qs ih =>
    cases i with
    | zero => simp at h
    | succ n =>
      simp only [List.getElem?_cons_succ] at h
      simp [modifyAt, ih n h]

theorem modifyAt_id (l : List Player) (i : Nat) (f : Player → Player) (p : Player)
    (hl : l[i]? = some p) (hf : f p = p) : modifyAt l i f = l := by
  induction l generalizing i with
  | nil => simp at hl
  | cons q qs ih =>
    cases i with
    | zero =>
      simp only [List.getElem?_cons_zero, Option.some.injEq] at hl
      subst hl
      simp [modifyAt, hf]
    | succ n =>
      simp only [List.getElem?_cons_succ] at hl
      simp [modifyAt, ih n hl]

theorem modifyAt_modifyAt (l : List Player) (i : Nat) (f h : Player → Player) :
    modifyAt (modifyAt l i f) i h = modifyAt l i (fun p => h (f p)) := by
  induction l generalizing i with
  | nil => simp [modifyAt]
  | cons q qs ih =>
    cases i with
    | zero => simp [modifyAt]
    | succ n => simp [modifyAt, ih]

/-! ### Frame lemmas about the game-state mutators -/

theorem setPlayerPos_getElem?_self (g : Game) (i : Nat) (pos : Int × Int) (p : Player)
    (h : g.players[i]? = some p) :
    (setPlayerPos g i pos).players[i]? = some { p with position := pos } :=
  modifyAt_getElem?_self _ _ _ _ h

theorem setPlayerPos_getElem?_ne (g : Game) (i j : Nat) (pos : Int × Int) (h : j ≠ i) :
    (setPlayerPos g i pos).players[j]? = g.players[j]? :=
  modifyAt_getElem?_ne _ _ _ _ h

theorem setPlayerPos_self (g : Game) (i : Nat) (p : Player)
    (h : g.players[i]? = some p) : setPlayerPos g i p.position = g := by
  show { g with players := _ } = g
  rw [modifyAt_id g.players i _ p h rfl]

theorem setPlayerPos_setPlayerPos (g : Game) (i : Nat) (a b : Int × Int) :
    setPlayerPos (setPlayerPos g i a) i b = setPlayerPos g i b := by
  simp only [setPlayerPos, modifyAt_modifyAt]

theorem sameFrame_refl (a : Game) : SameFrame a a :=
  ⟨rfl, rfl, rfl, rfl, rfl, rfl⟩

theorem sameFrame_trans {a b c : Game} (h1 : SameFrame a b) (h2 : SameFrame b c) :
    SameFrame a c := by
  obtain ⟨a1, a2, a3, a4, a5, a6⟩ := h1
  obtain ⟨b1, b2, b3, b4, b5, b6⟩ := h2
  exact ⟨a1.trans b1, a2.trans b2, a3.trans b3, a4.trans b4, a5.trans b5, a6.trans b6⟩

theorem setPlayerPos_frame (g : Game) (i : Nat) (pos : Int × Int) :
    SameFrame (setPlayerPos g i pos) g :=
  ⟨rfl, rfl, rfl, rfl, rfl, modifyAt_length _ _ _⟩

theorem damagePlayer_frame (g : Game) (i : Nat) (dmg : Int) :
    SameFrame (damagePlayer g i dmg) g :=
  ⟨rfl, rfl, rfl, rfl, rfl, modifyAt_length _ _ _⟩

theorem knockEff_refl (di : Nat) (g : Game) : KnockEff di g g :=
  ⟨sameFrame_refl g, fun _ _ => rfl, fun _ => rfl, fun _ => rfl, fun _ => rfl⟩

theorem knockEff_setPlayerPos (di : Nat) (g g2 : Game) (pos : Int × Int) (defender : Player)
    (hdef : g.players[di]? = some defender)
    (h : KnockEff di g2 (setPlayerPos g di pos)) : KnockEff di g2 g := by
  obtain ⟨f1, f2, f3, f4, f5⟩ := h
  refine ⟨sameFrame_trans f1 (setPlayerPos_frame g di pos), ?_, ?_, ?_, ?_⟩
  · intro j hj; rw [f2 j hj, setPlayerPos_getElem?_ne g di j pos hj]
  · intro j
    rw [f3 j]
    by_cases hj : j = di
    · rw [hj, setPlayerPos_getElem?_self g di pos defender hdef, hdef]
      rfl
    · rw [setPlayerPos_getElem?_ne g di j pos hj]
  · intro j
    rw [f4 j]
    by_cases hj : j = di
    · rw [hj, setPlayerPos_getElem?_self g di pos defender hdef, hdef]
      rfl
    · rw [setPlayerPos_getElem?_ne g di j pos hj]
  · intro j
    rw [f5 j]
    by_cases hj : j = di
    · rw [hj, setPlayerPos_getElem?_self g di pos defender hdef, hdef]
      rfl
    · rw [setPlayerPos_getElem?_ne g di j pos hj]

/-- Effects summary of the knockback loop: the frame is preserved, players
other than the defender are untouched, and every player keeps its gold,
health and alive status (the loop only moves the defender). -/
theorem knockLoop_effects (rng : Nat → Nat) (di : Nat) :
    ∀ (fuel : Nat) (g : Game) (k : Nat) (dr dc : Int),
      KnockEff di (knockLoop rng di fuel g k dr dc).1 g := by
  intro fuel
  induction fuel with
  | zero => intro g k dr dc; exact knockEff_refl di g
  | succ n ih =>
    intro g k dr dc
    rw [knockLoop]
    cases hdef : g.players[di]? with
    | none => exact knockEff_refl di g
    | some defender =>
      simp only
      have hfin : ∀ (opts : List (Int × Int)) (k2 : Nat),
          KnockEff di
            (if opts = [] then (g, k2)
             else
               knockLoop rng di n
                 (setPlayerPos g di (opts.getD (rng k2 % opts.length) (0, 0))) (k2 + 1)
                 ((opts.getD (rng k2 % opts.length) (0, 0)).1 - defender.position.1)
                 ((opts.getD (rng k2 % opts.length) (0, 0)).2 - defender.position.2)).1 g := by
        intro opts k2
        split
        · exact knockEff_refl di g
        · exact knockEff_setPlayerPos di g _ _ defender hdef (ih _ _ _ _)
      split
      · exact knockEff_setPlayerPos di g _ _ defender hdef (ih _ _ _ _)
      · split
        · exact hfin (knockOptions g defender.position.1 defender.position.2 dr dc) k
        · exact knockEff_refl di g

/-- Effects summary of one defender step: frame preserved, other players
untouched, all gold untouched. -/
theorem processDefender_effects (ar ac dmg kb : Int) (atkId : Nat) (rng : Nat → Nat)
    (acc : Game × Nat) (di : Nat) :
    SameFrame (processDefender ar ac dmg kb atkId rng acc di).1 acc.1 ∧
    (∀ (j : Nat), j ≠ di →
      (processDefender ar ac dmg kb atkId rng acc di).1.players[j]? = acc.1.players[j]?) ∧
    (∀ (j : Nat), ((processDefender ar ac dmg kb atkId rng acc di).1.players[j]?).map
      Player.gold = (acc.1.players[j]?).map Player.gold) := by
  rw [processDefender]
  cases hdef : acc.1.players[di]? with
  | none => exact ⟨sameFrame_refl _, fun _ _ => rfl, fun _ => rfl⟩
  | some defender =>
    simp only
    split
    · exact ⟨sameFrame_refl _, fun _ _ => rfl, fun _ => rfl⟩
    · split
      · exact ⟨sameFrame_refl _, fun _ _ => rfl, fun _ => rfl⟩
      · split
        · exact ⟨sameFrame_refl _, fun _ _ => rfl, fun _ => rfl⟩
        · obtain ⟨f1, f2, f3, _, _⟩ :=
            knockLoop_effects rng di (max 0 (kb - defender.knockback_resistance)).toNat
              (damagePlayer acc.1 di dmg) acc.2 (defender.position.1 - ar)
              (defender.position.2 - ac)
          refine ⟨sameFrame_trans f1 (damagePlayer_frame acc.1 di dmg), ?_, ?_⟩
          · intro j hj
            rw [f2 j hj]
            exact modifyAt_getElem?_ne _ _ _ _ hj
          · intro j
            rw [f3 j]
            by_cases hj : j = di
            · rw [hj]
              show ((modifyAt acc.1.players di _)[di]?).map Player.gold = _
              rw [modifyAt_getElem?_self _ _ _ _ hdef, hdef]
              rfl
            · show ((modifyAt acc.1.players di _)[j]?).map Player.gold = _
              rw [modifyAt_getElem?_ne _ _ _ _ hj]

/-- Effects of the whole defender fold: frame preserved, gold untouched,
and indices outside the processed list untouched. -/
theorem foldDefenders_effects (ar ac dmg kb : Int) (atkId : Nat) (rng : Nat → Nat) :
    ∀ (L : List Nat) (acc : Game × Nat),
      SameFrame (L.foldl (processDefender ar ac dmg kb atkId rng) acc).1 acc.1 ∧
      (∀ (j : Nat), j ∉ L →
        (L.foldl (processDefender ar ac dmg kb atkId rng) acc).1.players[j]? =
          acc.1.players[j]?) ∧
      (∀ (j : Nat), ((L.foldl (processDefender ar ac dmg kb atkId rng) acc).1.players[j]?).map
        Player.gold = (acc.1.players[j]?).map Player.gold) := by
  intro L
  induction L with
  | nil => exact fun acc => ⟨sameFrame_refl _, fun _ _ => rfl, fun _ => rfl⟩
  | cons d L ih =>
    intro acc
    obtain ⟨p1, p2, p3⟩ := processDefender_effects ar ac dmg kb atkId rng acc d
    obtain ⟨q1, q2, q3⟩ := ih (processDefender ar ac dmg kb atkId rng acc d)
    refine ⟨sameFrame_trans q1 p1, ?_, ?_⟩
    · intro j hj
      rw [List.foldl_cons, q2 j (fun hm => hj (List.mem_cons_of_mem d hm)),
        p2 j (fun he => hj (he ▸ List.mem_cons_self d L))]
    · intro j
      rw [List.foldl_cons, q3 j, p3 j]

/-- The wall query only reads the wall matrices. -/
theorem is_any_move_blocked_walls_congr (g1 g2 : Game) (fr fc tr tc : Int)
    (h1 : g1.vertical_walls = g2.vertical_walls)
    (h2 : g1.horizontal_walls = g2.horizontal_walls) :
    g1.is_any_move_blocked fr fc tr tc = g2.is_any_move_blocked fr fc tr tc := by
  simp only [Game.is_any_move_blocked, Game.is_diagonal_path_blocked,
    Game.is_cardinal_move_blocked, h1, h2]

/-- A defender whose direct path from the attacker is wall-blocked is
skipped entirely by the defender step. -/
theorem processDefender_blocked (ar ac dmg kb : Int) (atkId : Nat) (rng : Nat → Nat)
    (acc : Game × Nat) (di : Nat) (p : Player)
    (hdef : acc.1.players[di]? = some p)
    (hbl : acc.1.is_any_move_blocked ar ac p.position.1 p.position.2 = true) :
    processDefender ar ac dmg kb atkId rng acc di = acc := by
  rw [processDefender, hdef]
  simp only
  split
  · rfl
  · split
    · rfl
    · simp [hbl]

/-- Along the defender fold, a wall-blocked defender stays exactly as it
was. -/
theorem foldDefenders_blocked (g0 : Game) (ar ac dmg kb : Int) (atkId : Nat)
    (rng : Nat → Nat) (i : Nat) (p : Player)
    (hbl : g0.is_any_move_blocked ar ac p.position.1 p.position.2 = true) :
    ∀ (L : List Nat) (acc : Game × Nat),
      acc.1.vertical_walls = g0.vertical_walls →
      acc.1.horizontal_walls = g0.horizontal_walls →
      acc.1.players[i]? = some p →
      (L.foldl (processDefender ar ac dmg kb atkId rng) acc).1.players[i]? = some p := by
  intro L
  induction L with
  | nil => exact fun acc _ _ hp => hp
  | cons j L ih =>
    intro acc hv hh hp
    rw [List.foldl_cons]
    by_cases hj : j = i
    · subst hj
      have hacc : acc.1.is_any_move_blocked ar ac p.position.1 p.position.2 = true :=
        (is_any_move_blocked_walls_congr acc.1 g0 ar ac p.position.1 p.position.2 hv hh).trans hbl
      rw [processDefender_blocked ar ac dmg kb atkId rng acc j p hp hacc]
      exact ih acc hv hh hp
    · obtain ⟨⟨_, pv, ph, _, _, _⟩, p2, _⟩ := processDefender_effects ar ac dmg kb atkId rng acc j
      exact ih _ (pv.trans hv) (ph.trans hh) ((p2 i (fun he => hj he.symm)).trans hp)

/-- C4: if the direct attacker-to-defender path is wall-blocked under the
movement oracle, apply_attacks leaves that defender entirely unchanged
(no damage, no knockback). -/
theorem C4_blocked_attack_no_effect (g : Game) (attacker : Player) (moved : Bool)
    (rng : Nat → Nat) (i : Nat) (p : Player) (hdef : g.players[i]? = some p)
    (hadj : (attacker.position.1 - p.position.1).natAbs ≤ 1 ∧
      (attacker.position.2 - p.position.2).natAbs ≤ 1)
    (hbl : g.is_any_move_blocked attacker.position.1 attacker.position.2
      p.position.1 p.position.2 = true) :
    (apply_attacks g attacker moved rng).players[i]? = some p := by
  have _ := hadj
  exact foldDefenders_blocked g attacker.position.1 attacker.position.2 _ _ attacker.id rng i p
    hbl (List.range g.players.length) (g, 0) rfl rfl hdef

/-- Witness for C4: on gC4 the wall right of (0,0) blocks the attack on
the adjacent defender, who is untouched by apply_attacks. -/
theorem C4_witness :
    (gC4.players[1]? = some dfdAt01 ∧
      ((atkC5.position.1 - dfdAt01.position.1).natAbs ≤ 1 ∧
        (atkC5.position.2 - dfdAt01.position.2).natAbs ≤ 1) ∧
      gC4.is_any_move_blocked atkC5.position.1 atkC5.position.2
        dfdAt01.position.1 dfdAt01.position.2 = true) ∧
    (apply_attacks gC4 atkC5 true rngZero).players[1]? = some dfdAt01 :=
  ⟨⟨by decide, by decide, by decide⟩,
    C4_blocked_attack_no_effect gC4 atkC5 true rngZero 1 dfdAt01 (by decide) (by decide)
      (by decide)⟩

/-- Every member of the fallback option list is a legal destination from
the current cell. -/
theorem knockOptions_mem_valid (g : Game) (cr cc dr dc : Int) :
    ∀ x ∈ knockOptions g cr cc dr dc, g.is_valid_destination x.1 x.2 (cr, cc) = true := by
  intro x hx
  rw [knockOptions] at hx
  rcases List.mem_append.mp hx with h | h
  · split at h
    · rename_i hok
      rcases List.mem_singleton.mp h with rfl
      exact hok
    · simp at h
  · split at h
    · rename_i hok
      rcases List.mem_singleton.mp h with rfl
      exact hok
    · simp at h

/-- Every member of the fallback option list is the row option or the
column option. -/
theorem knockOptions_mem_shape (g : Game) (cr cc dr dc : Int) :
    ∀ x ∈ knockOptions g cr cc dr dc, x = (cr + dr, cc) ∨ x = (cr, cc + dc) := by
  intro x hx
  rw [knockOptions] at hx
  rcases List.mem_append.mp hx with h | h
  · split at h
    · exact Or.inl (List.mem_singleton.mp h)
    · simp at h
  · split at h
    · exact Or.inr (List.mem_singleton.mp h)
    · simp at h

/-- The chosen fallback cell is a member of a nonempty option list. -/
theorem getD_mod_mem (l : List (Int × Int)) (m : Nat) (d : Int × Int) (h : l ≠ []) :
    l.getD (m % l.length) d ∈ l := by
  have hlen : 0 < l.length := List.length_pos.mpr h
  have hlt : m % l.length < l.length := Nat.mod_lt m hlen
  rw [List.getD_eq_getElem?_getD, List.getElem?_eq_getElem hlt]
  exact List.getElem_mem hlt

/-- C9: when the destination check fails, move_current_player reports the
Blocked outcome and the state is returned entirely unchanged. -/
theorem C9_blocked_move_no_change (g : Game) (key : Key) (p : Player)
    (hp : g.players[g.current_player_index]? = some p)
    (hbl : g.is_valid_destination (p.position.1 + (movementKeys key).1)
      (p.position.2 + (movementKeys key).2) p.position = false) :
    move_current_player g key = (g, false) := by
  rw [move_current_player, hp]
  simp [hbl]

/-- Witness for C9: moving right from (0,0) on gC9 hits the wall and
leaves the game (players, gold, pickups) untouched. -/
theorem C9_witness :
    (gC9.players[gC9.current_player_index]? = some atkC5 ∧
      gC9.is_valid_destination (atkC5.position.1 + (movementKeys Key.d).1)
        (atkC5.position.2 + (movementKeys Key.d).2) atkC5.position = false) ∧
    move_current_player gC9 Key.d = (gC9, false) :=
  ⟨⟨by decide, by decide⟩, C9_blocked_move_no_change gC9 Key.d atkC5 (by decide) (by decide)⟩

/-- Counterexample to C3 as stated: from in-bounds (0,0) to (0,2) is
neither a single orthogonal step nor a single diagonal step, yet on gC3
(no walls, destination empty) is_valid_destination returns legal. -/
theorem C3_counterexample :
    (((0 : Int) - 0).natAbs + ((0 : Int) - 2).natAbs ≠ 1) ∧
    (¬(((0 : Int) - 0).natAbs = 1 ∧ ((0 : Int) - 2).natAbs = 1)) ∧
    gC3.is_valid_destination 0 2 (0, 0) = true := by decide

/-- C3 amended: destinations whose displacement is nonzero on both axes
but not a single diagonal step are always illegal; shapes confined to one
axis (distance 0 or a straight jump of two or more) are not in general
rejected. -/
theorem C3_two_axis_nonstep_illegal (g : Game) (f t : Int × Int)
    (h1 : f.1 ≠ t.1) (h2 : f.2 ≠ t.2)
    (h3 : ¬((f.1 - t.1).natAbs = 1 ∧ (f.2 - t.2).natAbs = 1)) :
    g.is_valid_destination t.1 t.2 f = false := by
  have hblk : g.is_any_move_blocked f.1 f.2 t.1 t.2 = true := by
    rw [Game.is_any_move_blocked, if_neg h3, Game.is_cardinal_move_blocked,
      if_neg h1, if_neg h2]
  simp [Game.is_valid_destination, hblk]

/-- Witness for C3 amended: a (2,1)-shaped request is rejected on gC3. -/
theorem C3_witness :
    (((0 : Int) ≠ (2 : Int)) ∧ ((0 : Int) ≠ (1 : Int)) ∧
      ¬(((0 : Int) - 2).natAbs = 1 ∧ ((0 : Int) - 1).natAbs = 1)) ∧
    gC3.is_valid_destination 2 1 (0, 0) = false :=
  ⟨⟨by decide, by decide, by decide⟩,
    C3_two_axis_nonstep_illegal gC3 (0, 0) (2, 1) (by decide) (by decide) (by decide)⟩

/-- C2: for a diagonal step, the movement oracle judges the move
wall-clear exactly when at least one of the two L-shaped corner paths is
fully wall-free. -/
theorem C2_diagonal_corner_paths (g : Game) (f t : Int × Int)
    (h1 : (f.1 - t.1).natAbs = 1) (h2 : (f.2 - t.2).natAbs = 1) :
    (g.is_any_move_blocked f.1 f.2 t.1 t.2 = false ↔
      cornerPath1Clear g f t ∨ cornerPath2Clear g f t) := by
  have hr : f.1 ≠ t.1 := by
    intro he
    rw [he] at h1
    simp at h1
  have hc : f.2 ≠ t.2 := by
    intro he
    rw [he] at h2
    simp at h2
  rw [Game.is_any_move_blocked, if_pos ⟨h1, h2⟩]
  cases ha : g.vertical_walls f.1.toNat (min f.2 t.2).toNat <;>
    cases hb : g.horizontal_walls (min f.1 t.1).toNat t.2.toNat <;>
      cases hw2 : g.horizontal_walls (min f.1 t.1).toNat f.2.toNat <;>
        cases hd : g.vertical_walls t.1.toNat (min f.2 t.2).toNat <;>
          simp [Game.is_diagonal_path_blocked, Game.is_cardinal_move_blocked,
            cornerPath1Clear, cornerPath2Clear, wallBetween, hr, hc, ha, hb, hw2, hd]

/-- Witness for C2 on the open board gC3, diagonal step (1,1) to (0,0). -/
theorem C2_witness :
    ((((1 : Int), (1 : Int)).1 - ((0 : Int), (0 : Int)).1).natAbs = 1 ∧
      (((1 : Int), (1 : Int)).2 - ((0 : Int), (0 : Int)).2).natAbs = 1) ∧
    (gC3.is_any_move_blocked 1 1 0 0 = false ↔
      cornerPath1Clear gC3 (1, 1) (0, 0) ∨ cornerPath2Clear gC3 (1, 1) (0, 0)) :=
  ⟨⟨by decide, by decide⟩, C2_diagonal_corner_paths gC3 (1, 1) (0, 0) (by decide) (by decide)⟩

/-- Triangle step for the Chebyshev distance. -/
theorem chebDist_le_succ (q pp p : Int × Int) (n : Nat)
    (h1 : chebDist q pp ≤ n) (h2 : (pp.1 - p.1).natAbs ≤ 1) (h3 : (pp.2 - p.2).natAbs ≤ 1) :
    chebDist q p ≤ n + 1 := by
  simp only [chebDist] at *
  omega

/-- Every run of the knockback loop moves the defender at most one cell
per unit of fuel (each iteration is a single straight or fallback step). -/
theorem knockLoop_cheb (rng : Nat → Nat) (di : Nat) :
    ∀ (fuel : Nat) (g : Game) (k : Nat) (dr dc : Int) (p q : Player),
      dr.natAbs ≤ 1 → dc.natAbs ≤ 1 →
      g.players[di]? = some p →
      (knockLoop rng di fuel g k dr dc).1.players[di]? = some q →
      chebDist q.position p.position ≤ fuel := by
  intro fuel
  induction fuel with
  | zero =>
    intro g k dr dc p q _ _ hp hq
    simp only [knockLoop] at hq
    rw [hp] at hq
    injection hq with hq
    subst hq
    simp [chebDist]
  | succ n ih =>
    intro g k dr dc p q hdr hdc hp hq
    rw [knockLoop, hp] at hq
    simp only at hq
    by_cases h1 : g.is_valid_destination (p.position.1 + dr) (p.position.2 + dc)
        (p.position.1, p.position.2) = true
    · rw [if_pos h1] at hq
      have hp2 := setPlayerPos_getElem?_self g di (p.position.1 + dr, p.position.2 + dc) p hp
      have hb := ih _ _ _ _ _ _ hdr hdc hp2 hq
      exact chebDist_le_succ _ _ _ n hb (by simpa using hdr) (by simpa using hdc)
    · rw [if_neg h1] at hq
      by_cases h2 : dr ≠ 0 ∧ dc ≠ 0
      · rw [if_pos h2] at hq
        by_cases h3 : knockOptions g p.position.1 p.position.2 dr dc = []
        · rw [if_pos h3] at hq
          rw [hp] at hq
          injection hq with hq
          subst hq
          simp [chebDist]
        · rw [if_neg h3] at hq
          have hmem := getD_mod_mem _ (rng k) (0, 0) h3
          have hshape := knockOptions_mem_shape g p.position.1 p.position.2 dr dc _ hmem
          rcases hshape with hch | hch
          · rw [hch] at hq
            have hp2 := setPlayerPos_getElem?_self g di (p.position.1 + dr, p.position.2) p hp
            have hb := ih _ _ _ _ _ _ (by simpa using hdr) (by simp) hp2 hq
            exact chebDist_le_succ _ _ _ n hb (by simpa using hdr) (by simp)
          · rw [hch] at hq
            have hp2 := setPlayerPos_getElem?_self g di (p.position.1, p.position.2 + dc) p hp
            have hb := ih _ _ _ _ _ _ (by simp) (by simpa using hdc) hp2 hq
            exact chebDist_le_succ _ _ _ n hb (by simp) (by simpa using hdc)
      · rw [if_neg h2] at hq
        rw [hp] at hq
        injection hq with hq
        subst hq
        simp [chebDist]

/-- C8: for any fuel, the knockback loop terminates within that many
single-cell steps, and the moment neither the straight push nor any
fallback is legal it stops at once, returning the state unchanged (the
remaining iterations are skipped). -/
theorem C8_knockLoop_bounded_and_stops (rng : Nat → Nat) (di : Nat) (fuel : Nat) (g : Game)
    (k : Nat) (dr dc : Int) (p : Player) (hp : g.players[di]? = some p)
    (hdr : dr.natAbs ≤ 1) (hdc : dc.natAbs ≤ 1) :
    (KnockStuck g p dr dc → knockLoop rng di fuel g k dr dc = (g, k)) ∧
    (∀ (q : Player), (knockLoop rng di fuel g k dr dc).1.players[di]? = some q →
      chebDist q.position p.position ≤ fuel) := by
  constructor
  · rintro ⟨hs1, hs2⟩
    cases fuel with
    | zero => rfl
    | succ n =>
      rw [knockLoop, hp]
      simp only [Prod.mk.eta]
      rw [if_neg (by simp [hs1])]
      rcases hs2 with h0 | h0 | ⟨ho1, ho2⟩
      · rw [if_neg (by simp [h0])]
      · rw [if_neg (by simp [h0])]
      · have hopt : knockOptions g p.position.1 p.position.2 dr dc = [] := by
          rw [knockOptions, if_neg (by simp [ho1]), if_neg (by simp [ho2])]
          rfl
        simp [hopt]
  · exact fun q hq => knockLoop_cheb rng di fuel g k dr dc p q hdr hdc hp hq

/-- Witness for C8: an orthogonal push into the wall right of (0,0) on
gC9 is stuck; the loop returns the state unchanged and the bound holds. -/
theorem C8_witness :
    (gC9.players[0]? = some atkC5 ∧ (0 : Int).natAbs ≤ 1 ∧ (1 : Int).natAbs ≤ 1 ∧
      KnockStuck gC9 atkC5 0 1) ∧
    (knockLoop rngZero 0 3 gC9 0 0 1 = (gC9, 0) ∧
      ∀ (q : Player), (knockLoop rngZero 0 3 gC9 0 0 1).1.players[0]? = some q →
        chebDist q.position atkC5.position ≤ 3) :=
  ⟨⟨by decide, by decide, by decide, ⟨by decide, Or.inl rfl⟩⟩,
    ⟨(C8_knockLoop_bounded_and_stops rngZero 0 3 gC9 0 0 1 atkC5 (by decide) (by decide)
        (by decide)).1 ⟨by decide, Or.inl rfl⟩,
      (C8_knockLoop_bounded_and_stops rngZero 0 3 gC9 0 0 1 atkC5 (by decide) (by decide)
        (by decide)).2⟩⟩

/-- A single defender step displaces that defender by at most the
effective push distance max(0, kb - resistance). -/
theorem processDefender_cheb (ar ac dmg kb : Int) (atkId : Nat) (rng : Nat → Nat)
    (acc : Game × Nat) (di : Nat) (p q : Player)
    (hp : acc.1.players[di]? = some p)
    (hq : (processDefender ar ac dmg kb atkId rng acc di).1.players[di]? = some q) :
    chebDist q.position p.position ≤ (max 0 (kb - p.knockback_resistance)).toNat := by
  rw [processDefender, hp] at hq
  simp only at hq
  by_cases hskip : p.id = atkId ∨ p.is_alive = false
  · rw [if_pos hskip] at hq
    rw [hp] at hq
    injection hq with hq
    subst hq
    simp [chebDist]
  · rw [if_neg hskip] at hq
    by_cases hdist : 1 < (ar - p.position.1).natAbs ∨ 1 < (ac - p.position.2).natAbs
    · rw [if_pos hdist] at hq
      rw [hp] at hq
      injection hq with hq
      subst hq
      simp [chebDist]
    · rw [if_neg hdist] at hq
      by_cases hbl : acc.1.is_any_move_blocked ar ac p.position.1 p.position.2 = true
      · rw [if_pos hbl] at hq
        rw [hp] at hq
        injection hq with hq
        subst hq
        simp [chebDist]
      · rw [if_neg hbl] at hq
        have hp1 : (damagePlayer acc.1 di dmg).players[di]? =
            some { p with health := p.health - dmg } :=
          modifyAt_getElem?_self _ _ _ _ hp
        have hb := knockLoop_cheb rng di _ _ _ _ _ _ q (by omega) (by omega) hp1 hq
        simpa using hb

/-- Along the defender fold with distinct indices, each defender is
displaced at most its own effective push distance. -/
theorem foldDefenders_cheb (ar ac dmg kb : Int) (atkId : Nat) (rng : Nat → Nat) :
    ∀ (L : List Nat), L.Nodup → ∀ (acc : Game × Nat) (i : Nat) (p q : Player),
      acc.1.players[i]? = some p →
      (L.foldl (processDefender ar ac dmg kb atkId rng) acc).1.players[i]? = some q →
      chebDist q.position p.position ≤
        (if i ∈ L then (max 0 (kb - p.knockback_resistance)).toNat else 0) := by
  intro L
  induction L with
  | nil =>
    intro _ acc i p q hp hq
    simp only [List.foldl_nil] at hq
    rw [hp] at hq
    injection hq with hq
    subst hq
    simp [chebDist]
  | cons j L ih =>
    intro hnd acc i p q hp hq
    have hnd2 := List.nodup_cons.mp hnd
    rw [List.foldl_cons] at hq
    by_cases hij : j = i
    · subst hij
      have hlen : j < acc.1.players.length := by
        by_contra hcon
        push_neg at hcon
        rw [List.getElem?_eq_none hcon] at hp
        exact Option.noConfusion hp

      have hlen2 : j < (processDefender ar ac dmg kb atkId rng acc j).1.players.length := by
        have hfr := (processDefender_effects ar ac dmg kb atkId rng acc j).1.2.2.2.2.2
        omega
      obtain ⟨q1, hq1⟩ : ∃ q1,
          (processDefender ar ac dmg kb atkId rng acc j).1.players[j]? = some q1 :=
        ⟨_, List.getElem?_eq_getElem hlen2⟩
      have h1 := processDefender_cheb ar ac dmg kb atkId rng acc j p q1 hp hq1
      have h2 := (foldDefenders_effects ar ac dmg kb atkId rng L
        (processDefender ar ac dmg kb atkId rng acc j)).2.1 j hnd2.1
      rw [h2, hq1] at hq
      injection hq with hq
      subst hq
      rw [if_pos (List.mem_cons_self j L)]
      exact h1
    · obtain ⟨_, p2, _⟩ := processDefender_effects ar ac dmg kb atkId rng acc j
      have hp2 : (processDefender ar ac dmg kb atkId rng acc j).1.players[i]? = some p := by
        rw [p2 i (fun he => hij he.symm)]
        exact hp
      have hb := ih hnd2.2 (processDefender ar ac dmg kb atkId rng acc j) i p q hp2 hq
      by_cases hmem : i ∈ L
      · rw [if_pos hmem] at hb
        rw [if_pos (List.mem_cons_of_mem j hmem)]
        exact hb
      · rw [if_neg hmem] at hb
        exact le_trans hb (Nat.zero_le _)

/-- C6 amended: the knockback loop for a defender runs max(0, K - res)
iterations where K is the attacker's knockback_strength when it moved and
twice that when it stayed; hence each defender is displaced at most that
many cells in Chebyshev distance. -/
theorem C6_knockback_displacement_bound (g : Game) (attacker : Player) (moved : Bool)
    (rng : Nat → Nat) (i : Nat) (p q : Player)
    (hp : g.players[i]? = some p)
    (hq : (apply_attacks g attacker moved rng).players[i]? = some q) :
    chebDist q.position p.position ≤
      (max 0 ((if moved then attacker.knockback_strength else attacker.knockback_strength * 2) -
        p.knockback_resistance)).toNat := by
  have hlen : i < g.players.length := by
    by_contra hcon
    push_neg at hcon
    rw [List.getElem?_eq_none hcon] at hp
    exact Option.noConfusion hp
  simp only [apply_attacks] at hq
  have hb := foldDefenders_cheb attacker.position.1 attacker.position.2
    (if moved then attacker.damage else attacker.damage * 2)
    (if moved then attacker.knockback_strength else attacker.knockback_strength * 2)
    attacker.id rng (List.range g.players.length) (List.nodup_range _) (g, 0) i p q hp hq
  rwa [if_pos (List.mem_range.mpr hlen)] at hb

/-- Witness for C6 amended: the stationary attack on gC6 pushes the
defender four cells, attaining the bound max(0, 2*2 - 0) = 4. -/
theorem C6_witness :
    (gC6.players[1]? = some dfdAt01 ∧
      (apply_attacks gC6 atkC5 false rngZero).players[1]? =
        some { dfdAt01 with position := (0, 5), health := 3 }) ∧
    chebDist ({ dfdAt01 with position := (0, 5), health := 3 } : Player).position
      dfdAt01.position ≤
      (max 0 ((if false then atkC5.knockback_strength else atkC5.knockback_strength * 2) -
        dfdAt01.knockback_resistance)).toNat :=
  ⟨⟨by decide, by decide⟩,
    C6_knockback_displacement_bound gC6 atkC5 false rngZero 1 dfdAt01 _ (by decide) (by decide)⟩

/-- Counterexample to C6 as stated: on the open board gC6 a stationary
attacker with knockback_strength 2 against resistance 0 pushes the
defender from (0,1) to (0,5), i.e. four knockback iterations, not
max(0, 2 - 0) = 2 (the code doubles the knockback on a stationary
attack). -/
theorem C6_counterexample :
    ((apply_attacks gC6 atkC5 false rngZero).players[1]?).map Player.position =
      some ((0 : Int), (5 : Int)) ∧
    (max 0 (atkC5.knockback_strength - dfdAt01.knockback_resistance)).toNat = 2 ∧
    chebDist ((0 : Int), (5 : Int)) ((0 : Int), (1 : Int)) = 4 := by decide

/-- Sign of a positive multiple of a unit-or-zero component is the
component itself. -/
theorem sgn_nat_mul (j : Nat) (d : Int) (hj : 1 ≤ j) (hd : d.natAbs ≤ 1) :
    sgn ((j : Int) * d) = d := by
  have hj0 : (0 : Int) < (j : Int) := by exact_mod_cast hj
  have hd3 : d = -1 ∨ d = 0 ∨ d = 1 := by omega
  rcases hd3 with h | h | h <;> subst h
  · rw [sgn, if_neg (by omega), if_pos (by omega)]
  · simp [sgn]
  · rw [sgn, if_pos (by omega)]

/-- C5 amended: as long as every push in the knockback run is a legal
straight push (no fallback is taken), the carried push vector coincides
with the freshly recomputed unit vector from the attacker, and the whole
loop computes exactly what the spec's fresh-recompute loop computes.
The defender starts j steps along the ray from the attacker at (ar, ac). -/
theorem C5_straight_run_fresh_equiv (rng : Nat → Nat) (di : Nat) (ar ac dr dc : Int)
    (hdr : dr.natAbs ≤ 1) (hdc : dc.natAbs ≤ 1) :
    ∀ (n j : Nat) (g : Game) (k : Nat) (p : Player), 1 ≤ j →
      g.players[di]? = some p →
      p.position = (ar + (j : Int) * dr, ac + (j : Int) * dc) →
      (∀ (m : Nat), j ≤ m → m < j + n →
        (setPlayerPos g di (ar + (m : Int) * dr, ac + (m : Int) * dc)).is_valid_destination
          (ar + ((m : Int) + 1) * dr) (ac + ((m : Int) + 1) * dc)
          (ar + (m : Int) * dr, ac + (m : Int) * dc) = true) →
      knockLoop rng di n g k dr dc = freshKnockLoop rng di ar ac n g k := by
  intro n
  induction n with
  | zero => intro j g k p hj hp hpos hH; rfl
  | succ n ih =>
    intro j g k p hj hp hpos hH
    have hp1 : p.position.1 = ar + (j : Int) * dr := by rw [hpos]
    have hp2 : p.position.2 = ac + (j : Int) * dc := by rw [hpos]
    have hsr : sgn (p.position.1 - ar) = dr := by
      rw [hp1, add_sub_cancel_left]
      exact sgn_nat_mul j dr hj hdr
    have hsc : sgn (p.position.2 - ac) = dc := by
      rw [hp2, add_sub_cancel_left]
      exact sgn_nat_mul j dc hj hdc
    have hsp : setPlayerPos g di (ar + (j : Int) * dr, ac + (j : Int) * dc) = g := by
      rw [← hpos]
      exact setPlayerPos_self g di p hp
    have hvalid0 := hH j (le_refl j) (by omega)
    rw [hsp] at hvalid0
    have hvalid : g.is_valid_destination (p.position.1 + dr) (p.position.2 + dc)
        (p.position.1, p.position.2) = true := by
      have e1 : p.position.1 + dr = ar + ((j : Int) + 1) * dr := by rw [hp1]; ring
      have e2 : p.position.2 + dc = ac + ((j : Int) + 1) * dc := by rw [hp2]; ring
      rw [e1, e2, hp1, hp2]
      exact hvalid0
    rw [knockLoop, freshKnockLoop, hp]
    simp only [hsr, hsc]
    rw [if_pos hvalid, if_pos hvalid]
    refine ih (j + 1) _ k { p with position := (p.position.1 + dr, p.position.2 + dc) }
      (by omega) (setPlayerPos_getElem?_self g di _ p hp) ?_ ?_
    · show (p.position.1 + dr, p.position.2 + dc) =
        (ar + ((j + 1 : Nat) : Int) * dr, ac + ((j + 1 : Nat) : Int) * dc)
      rw [Prod.mk.injEq]
      constructor
      · rw [hp1]; push_cast; ring
      · rw [hp2]; push_cast; ring
    · intro m hm1 hm2
      rw [setPlayerPos_setPlayerPos]
      exact hH m (by omega) (by omega)

/-- Counterexample to C5 as stated: on gC5 the code's knockback run ends
with the defender at (3,1) because after the fallback to (2,1) the
adopted vector (1,0) is carried, while recomputing the unit vector from
the attacker at (0,0) each iteration (the spec model freshKnockLoop)
would push toward (3,2), which is legal there; the two runs disagree. -/
theorem C5_counterexample :
    ((apply_attacks gC5 atkC5 true rngZero).players[1]?).map Player.position =
      some ((3 : Int), (1 : Int)) ∧
    (((freshKnockLoop rngZero 1 0 0 2 gC5 0).1).players[1]?).map Player.position =
      some ((3 : Int), (2 : Int)) ∧
    ((3 : Int), (1 : Int)) ≠ ((3 : Int), (2 : Int)) := by decide

/-- Witness for C5 amended: a two-push straight run on the open board
gC5W equals the fresh-recompute loop. -/
theorem C5_witness :
    ((1 : Int).natAbs ≤ 1 ∧ (1 ≤ 1) ∧ gC5W.players[1]? = some dfdC5 ∧
      dfdC5.position = (0 + ((1 : Nat) : Int) * 1, 0 + ((1 : Nat) : Int) * 1) ∧
      (∀ (m : Nat), 1 ≤ m → m < 1 + 2 →
        (setPlayerPos gC5W 1 (0 + (m : Int) * 1, 0 + (m : Int) * 1)).is_valid_destination
          (0 + ((m : Int) + 1) * 1) (0 + ((m : Int) + 1) * 1)
          (0 + (m : Int) * 1, 0 + (m : Int) * 1) = true)) ∧
    knockLoop rngZero 1 2 gC5W 0 1 1 = freshKnockLoop rngZero 1 0 0 2 gC5W 0 :=
  ⟨⟨by decide, by decide, by decide, by decide,
      by intro m h1 h2; interval_cases m <;> decide⟩,
    C5_straight_run_fresh_equiv rngZero 1 0 0 1 1 (by decide) (by decide) 2 1 gC5W 0 dfdC5
      (by decide) (by decide) (by decide)
      (by intro m h1 h2; interval_cases m <;> decide)⟩

theorem mem_of_idx (l : List Player) (i : Nat) (a : Player) (h : l[i]? = some a) : a ∈ l := by
  obtain ⟨hl, rfl⟩ := List.getElem?_eq_some.mp h
  exact List.getElem_mem hl

/-- A successful destination check means no alive player occupies the
destination cell. -/
theorem valid_dest_occupancy (g : Game) (tr tc : Int) (fp : Int × Int)
    (h : g.is_valid_destination tr tc fp = true) :
    g.players.any (fun p => decide (p.position = (tr, tc)) && p.is_alive) = false := by
  by_contra hne
  rw [Bool.not_eq_false] at hne
  rw [Game.is_valid_destination] at h
  simp [hne] at h

theorem valid_dest_no_alive_at (g : Game) (tr tc : Int) (fp : Int × Int)
    (h : g.is_valid_destination tr tc fp = true) :
    ∀ q ∈ g.players, q.is_alive = true → q.position ≠ (tr, tc) := by
  intro q hq ha hpos
  have h0 := List.any_eq_false.mp (valid_dest_occupancy g tr tc fp h) q hq
  exact h0 (by simp [hpos, ha])

/-- Moving one player to a cell holding no alive player preserves
occupancy exclusivity, whatever else the update does to that player. -/
theorem exclusive_after_modify_pos (g : Game) (di : Nat) (f : Player → Player) (tr tc : Int)
    (hfp : ∀ p, (f p).position = (tr, tc))
    (hex : PlayersExclusive g)
    (hno : ∀ q ∈ g.players, q.is_alive = true → q.position ≠ (tr, tc)) :
    PlayersExclusive { g with players := modifyAt g.players di f } := by
  intro i j pa pb hij hpa hpb ha hb
  have hpa2 : (modifyAt g.players di f)[i]? = some pa := hpa
  have hpb2 : (modifyAt g.players di f)[j]? = some pb := hpb
  by_cases hi : i = di
  · subst hi
    cases hgi : g.players[i]? with
    | none => rw [modifyAt_none _ _ _ hgi, hgi] at hpa2; exact Option.noConfusion hpa2
    | some p0 =>
      rw [modifyAt_getElem?_self _ _ _ _ hgi] at hpa2
      injection hpa2 with hpa2
      subst hpa2
      rw [modifyAt_getElem?_ne _ _ _ _ (fun he => hij he.symm)] at hpb2
      intro heq
      exact hno pb (mem_of_idx _ _ _ hpb2) hb (by rw [← heq, hfp p0])
  · by_cases hj : j = di
    · subst hj
      cases hgj : g.players[j]? with
      | none => rw [modifyAt_none _ _ _ hgj, hgj] at hpb2; exact Option.noConfusion hpb2
      | some p0 =>
        rw [modifyAt_getElem?_self _ _ _ _ hgj] at hpb2
        injection hpb2 with hpb2
        subst hpb2
        rw [modifyAt_getElem?_ne _ _ _ _ hi] at hpa2
        intro heq
        exact hno pa (mem_of_idx _ _ _ hpa2) ha (heq.trans (hfp p0))
    · rw [modifyAt_getElem?_ne _ _ _ _ hi] at hpa2
      rw [modifyAt_getElem?_ne _ _ _ _ hj] at hpb2
      exact hex i j pa pb hij hpa2 hpb2 ha hb

/-- Damaging an alive player preserves occupancy exclusivity: positions
are untouched and the damaged player can only leave the alive set. -/
theorem exclusive_after_damage (g : Game) (di : Nat) (dmg : Int) (d0 : Player)
    (hd : g.players[di]? = some d0) (hal : d0.is_alive = true)
    (hex : PlayersExclusive g) : PlayersExclusive (damagePlayer g di dmg) := by
  intro i j pa pb hij hpa hpb ha hb
  have hpa2 : (modifyAt g.players di (fun p => { p with health := p.health - dmg }))[i]? =
    some pa := hpa
  have hpb2 : (modifyAt g.players di (fun p => { p with health := p.health - dmg }))[j]? =
    some pb := hpb
  by_cases hi : i = di
  · subst hi
    rw [modifyAt_getElem?_self _ _ _ _ hd] at hpa2
    injection hpa2 with hpa2
    subst hpa2
    rw [modifyAt_getElem?_ne _ _ _ _ (fun he => hij he.symm)] at hpb2
    exact hex i j d0 pb hij hd hpb2 hal hb
  · by_cases hj : j = di
    · subst hj
      rw [modifyAt_getElem?_self _ _ _ _ hd] at hpb2
      injection hpb2 with hpb2
      subst hpb2
      rw [modifyAt_getElem?_ne _ _ _ _ hi] at hpa2
      exact hex i j pa d0 hij hpa2 hd ha hal
    · rw [modifyAt_getElem?_ne _ _ _ _ hi] at hpa2
      rw [modifyAt_getElem?_ne _ _ _ _ hj] at hpb2
      exact hex i j pa pb hij hpa2 hpb2 ha hb

/-- The knockback loop preserves occupancy exclusivity: every step moves
the defender to a destination the oracle approved. -/
theorem exclusive_knockLoop (rng : Nat → Nat) (di : Nat) :
    ∀ (fuel : Nat) (g : Game) (k : Nat) (dr dc : Int),
      PlayersExclusive g → PlayersExclusive (knockLoop rng di fuel g k dr dc).1 := by
  intro fuel
  induction fuel with
  | zero => exact fun g k dr dc h => h
  | succ n ih =>
    intro g k dr dc hex
    rw [knockLoop]
    cases hdef : g.players[di]? with
    | none => exact hex
    | some defender =>
      simp only
      have hfin : ∀ (opts : List (Int × Int)) (k2 : Nat),
          (∀ x ∈ opts, g.is_valid_destination x.1 x.2
            (defender.position.1, defender.position.2) = true) →
          PlayersExclusive
            (if opts = [] then (g, k2)
             else
               knockLoop rng di n
                 (setPlayerPos g di (opts.getD (rng k2 % opts.length) (0, 0))) (k2 + 1)
                 ((opts.getD (rng k2 % opts.length) (0, 0)).1 - defender.position.1)
                 ((opts.getD (rng k2 % opts.length) (0, 0)).2 - defender.position.2)).1 := by
        intro opts k2 hv
        split
        · exact hex
        · rename_i hne
          have hmem := getD_mod_mem opts (rng k2) (0, 0) hne
          exact ih _ _ _ _ (exclusive_after_modify_pos g di _
            (opts.getD (rng k2 % opts.length) (0, 0)).1
            (opts.getD (rng k2 % opts.length) (0, 0)).2 (fun p => rfl) hex
            (valid_dest_no_alive_at g _ _ _ (hv _ hmem)))
      split
      · rename_i hval
        exact ih _ _ _ _ (exclusive_after_modify_pos g di _ _ _ (fun p => rfl) hex
          (valid_dest_no_alive_at g _ _ _ hval))
      · split
        · exact hfin (knockOptions g defender.position.1 defender.position.2 dr dc) k
            (knockOptions_mem_valid g defender.position.1 defender.position.2 dr dc)
        · exact hex

/-- One defender step preserves occupancy exclusivity. -/
theorem exclusive_processDefender (ar ac dmg kb : Int) (atkId : Nat) (rng : Nat → Nat)
    (acc : Game × Nat) (di : Nat) (hex : PlayersExclusive acc.1) :
    PlayersExclusive (processDefender ar ac dmg kb atkId rng acc di).1 := by
  rw [processDefender]
  cases hdef : acc.1.players[di]? with
  | none => exact hex
  | some defender =>
    simp only
    split
    · exact hex
    · rename_i hskip
      split
      · exact hex
      · split
        · exact hex
        · have hal : defender.is_alive = true := by
            push_neg at hskip
            rw [← Bool.not_eq_false]
            exact hskip.2
          exact exclusive_knockLoop rng di _ _ _ _ _
            (exclusive_after_damage acc.1 di dmg defender hdef hal hex)

/-- apply_attacks preserves occupancy exclusivity. -/
theorem exclusive_apply_attacks (g : Game) (atk : Player) (moved : Bool) (rng : Nat → Nat)
    (hex : PlayersExclusive g) : PlayersExclusive (apply_attacks g atk moved rng) := by
  have hfold : ∀ (L : List Nat) (acc : Game × Nat), PlayersExclusive acc.1 →
      PlayersExclusive ((L.foldl (processDefender atk.position.1 atk.position.2
        (if moved then atk.damage else atk.damage * 2)
        (if moved then atk.knockback_strength else atk.knockback_strength * 2)
        atk.id rng) acc).1) := by
    intro L
    induction L with
    | nil => exact fun acc h => h
    | cons d L ih =>
      intro acc h
      rw [List.foldl_cons]
      exact ih _ (exclusive_processDefender _ _ _ _ _ _ acc d h)
  exact hfold (List.range g.players.length) (g, 0) hex

/-- A successful move preserves occupancy exclusivity: the oracle was
consulted about the destination cell. -/
theorem exclusive_move_current_player (g : Game) (key : Key) (hex : PlayersExclusive g) :
    PlayersExclusive (move_current_player g key).1 := by
  rw [move_current_player]
  cases hp : g.players[g.current_player_index]? with
  | none => exact hex
  | some player =>
    simp only
    split
    · rename_i hval
      split
      · exact exclusive_after_modify_pos g _ _ _ _ (fun p => rfl) hex
          (valid_dest_no_alive_at g _ _ _ hval)
      · exact exclusive_after_modify_pos g _ _ _ _ (fun p => rfl) hex
          (valid_dest_no_alive_at g _ _ _ hval)
    · exact hex

/-- The initial state places the two alive players on distinct corners. -/
theorem exclusive_init (sh : Nat × Nat → List Dir) (brv brh : Nat → Nat → Bool)
    (gold : List (Int × Int)) : PlayersExclusive (initGame sh brv brh gold) := by
  intro i j pa pb hij hpa hpb ha hb
  have hpa2 : ([initPlayer 0 (0, 0), initPlayer 1 (9, 9)] : List Player)[i]? = some pa := hpa
  have hpb2 : ([initPlayer 0 (0, 0), initPlayer 1 (9, 9)] : List Player)[j]? = some pb := hpb
  rcases i with _ | _ | i <;> rcases j with _ | _ | j <;>
    simp_all [initPlayer] <;> rw [← hpa2, ← hpb2] <;> decide

/-- C7: every state reachable from the initial state through moves and
attack resolutions keeps at most one alive combatant per coordinate. -/
theorem C7_reachable_occupancy_exclusive (g : Game) (h : ReachableSt g) :
    PlayersExclusive g := by
  induction h with
  | init sh brv brh gold => exact exclusive_init sh brv brh gold
  | move g key _ ih => exact exclusive_move_current_player g key ih
  | attack g atk moved rng _ ih => exact exclusive_apply_attacks g atk moved rng ih
  | setTurn g i _ ih => exact ih

/-- Witness for C7 at the initial state itself. -/
theorem C7_witness : PlayersExclusive (initGame shConst brNone brNone []) :=
  C7_reachable_occupancy_exclusive _ (ReachableSt.init shConst brNone brNone [])

/-! ### Wall generation: connectivity of the carved maze -/

theorem stle_refl (s : CarveSt) : StLe s s :=
  ⟨fun _ h => h, fun _ _ h => h, fun _ _ h => h⟩

theorem stle_trans {a b c : CarveSt} (h1 : StLe a b) (h2 : StLe b c) : StLe a c :=
  ⟨fun p h => h2.1 p (h1.1 p h), fun x y h => h1.2.1 x y (h2.2.1 x y h),
    fun x y h => h1.2.2 x y (h2.2.2 x y h)⟩

theorem visit_visited (s : CarveSt) (rc p : Nat × Nat) :
    (s.visit rc).visited p = true ↔ p = rc ∨ s.visited p = true := by
  rw [CarveSt.visit]
  by_cases h : p = rc <;> simp [h]

theorem visit_self (s : CarveSt) (rc : Nat × Nat) : (s.visit rc).visited rc = true := by
  simp [CarveSt.visit]

theorem visit_other (s : CarveSt) (rc p : Nat × Nat) (h : p ≠ rc) :
    (s.visit rc).visited p = s.visited p := by
  simp [CarveSt.visit, h]

theorem stle_visit (s : CarveSt) (rc : Nat × Nat) : StLe s (s.visit rc) :=
  ⟨fun p h => (visit_visited s rc p).mpr (Or.inr h), fun _ _ h => h, fun _ _ h => h⟩

theorem clearWall_visited (s : CarveSt) (r c : Nat) (d : Dir) :
    (s.clearWall r c d).visited = s.visited := by
  cases d <;> rfl

theorem if_false_le {c : Prop} [Decidable c] (x : Bool) (h : (if c then false else x) = true) :
    x = true := by
  split at h
  · exact absurd h (by simp)
  · exact h

theorem stle_clearWall (s : CarveSt) (r c : Nat) (d : Dir) : StLe s (s.clearWall r c d) := by
  cases d
  case up => exact ⟨fun p h => h, fun a b h => h, fun a b h => if_false_le _ h⟩
  case down => exact ⟨fun p h => h, fun a b h => h, fun a b h => if_false_le _ h⟩
  case left => exact ⟨fun p h => h, fun a b h => if_false_le _ h, fun a b h => h⟩
  case right => exact ⟨fun p h => h, fun a b h => if_false_le _ h, fun a b h => h⟩

theorem unvisitedCount_congr (size : Nat) (s t : CarveSt) (h : s.visited = t.visited) :
    unvisitedCount size s = unvisitedCount size t := by
  unfold unvisitedCount
  rw [h]

theorem unvisitedCount_mono (size : Nat) {s t : CarveSt} (h : StLe s t) :
    unvisitedCount size t ≤ unvisitedCount size s := by
  apply Finset.card_le_card
  intro p hp
  rw [Finset.mem_filter] at hp ⊢
  refine ⟨hp.1, ?_⟩
  by_contra hcon
  rw [Bool.not_eq_false] at hcon
  exact absurd hp.2 (by simp [h.1 p hcon])

theorem unvisitedCount_visit_lt (size : Nat) (s : CarveSt) (rc : Nat × Nat)
    (h1 : rc.1 < size) (h2 : rc.2 < size) (h3 : s.visited rc = false) :
    unvisitedCount size (s.visit rc) < unvisitedCount size s := by
  have hsub : (gridCells size).filter (fun p => (s.visit rc).visited p = false) ⊆
      (gridCells size).filter (fun p => s.visited p = false) := by
    intro p hp
    rw [Finset.mem_filter] at hp ⊢
    refine ⟨hp.1, ?_⟩
    by_contra hcon
    rw [Bool.not_eq_false] at hcon
    exact absurd hp.2 (by simp [(visit_visited s rc p).mpr (Or.inr hcon)])
  apply Finset.card_lt_card
  rw [Finset.ssubset_iff_of_subset hsub]
  refine ⟨rc, Finset.mem_filter.mpr ⟨?_, h3⟩, ?_⟩
  · simp [gridCells, Finset.mem_product, Finset.mem_range, h1, h2]
  · simp [Finset.mem_filter, visit_self]

theorem neighborCell_bounds {size r c : Nat} {d : Dir} {nb : Nat × Nat}
    (h : neighborCell size r c d = some nb) : nb.1 < size ∧ nb.2 < size := by
  cases d <;>
    (rw [neighborCell] at h
     split at h
     · rename_i hcond
       injection h with h
       subst h
       exact ⟨by omega, by omega⟩
     · exact Option.noConfusion h)

theorem imp_false_of_imp_true {x y : Bool} (h : y = true → x = true) (hx : x = false) :
    y = false := by
  cases hy : y
  · rfl
  · rw [h hy] at hx
    exact Bool.noConfusion hx

theorem adjFree_mono {size : Nat} {vw1 hw1 vw2 hw2 : Nat → Nat → Bool}
    (hv : ∀ a b, vw2 a b = true → vw1 a b = true)
    (hh : ∀ a b, hw2 a b = true → hw1 a b = true) {p q : Nat × Nat}
    (h : adjFree size vw1 hw1 p q) : adjFree size vw2 hw2 p q := by
  obtain ⟨b1, b2, b3, b4, h5⟩ := h
  refine ⟨b1, b2, b3, b4, ?_⟩
  rcases h5 with ⟨he, h6 | h6⟩ | ⟨he, h6 | h6⟩
  · exact Or.inl ⟨he, Or.inl ⟨h6.1, imp_false_of_imp_true (hv _ _) h6.2⟩⟩
  · exact Or.inl ⟨he, Or.inr ⟨h6.1, imp_false_of_imp_true (hv _ _) h6.2⟩⟩
  · exact Or.inr ⟨he, Or.inl ⟨h6.1, imp_false_of_imp_true (hh _ _) h6.2⟩⟩
  · exact Or.inr ⟨he, Or.inr ⟨h6.1, imp_false_of_imp_true (hh _ _) h6.2⟩⟩

theorem adjFree_symm {size : Nat} {vw hw : Nat → Nat → Bool} {p q : Nat × Nat}
    (h : adjFree size vw hw p q) : adjFree size vw hw q p := by
  obtain ⟨b1, b2, b3, b4, h5⟩ := h
  refine ⟨b3, b4, b1, b2, ?_⟩
  rcases h5 with ⟨he, h6 | h6⟩ | ⟨he, h6 | h6⟩
  · exact Or.inl ⟨he.symm, Or.inr ⟨h6.1, he ▸ h6.2⟩⟩
  · exact Or.inl ⟨he.symm, Or.inl ⟨h6.1, he ▸ h6.2⟩⟩
  · exact Or.inr ⟨he.symm, Or.inr ⟨h6.1, he ▸ h6.2⟩⟩
  · exact Or.inr ⟨he.symm, Or.inl ⟨h6.1, he ▸ h6.2⟩⟩

theorem reachFree_single {size : Nat} {vw hw : Nat → Nat → Bool} {p q : Nat × Nat}
    (h : adjFree size vw hw p q) : ReachFree size vw hw p q :=
  (ReachFree.refl p).tail h

theorem reachFree_trans {size : Nat} {vw hw : Nat → Nat → Bool} {p q r : Nat × Nat}
    (h1 : ReachFree size vw hw p q) (h2 : ReachFree size vw hw q r) :
    ReachFree size vw hw p r := by
  induction h2 with
  | refl => exact h1
  | tail _ ha ih => exact ih.tail ha

theorem reachFree_symm {size : Nat} {vw hw : Nat → Nat → Bool} {p q : Nat × Nat}
    (h : ReachFree size vw hw p q) : ReachFree size vw hw q p := by
  induction h with
  | refl => exact ReachFree.refl _
  | tail _ ha ih => exact reachFree_trans (reachFree_single (adjFree_symm ha)) ih

theorem reachFree_mono {size : Nat} {vw1 hw1 vw2 hw2 : Nat → Nat → Bool}
    (hv : ∀ a b, vw2 a b = true → vw1 a b = true)
    (hh : ∀ a b, hw2 a b = true → hw1 a b = true) {p q : Nat × Nat}
    (h : ReachFree size vw1 hw1 p q) : ReachFree size vw2 hw2 p q := by
  induction h with
  | refl => exact ReachFree.refl _
  | tail _ ha ih => exact ih.tail (adjFree_mono hv hh ha)

theorem clearWall_adjFree {size : Nat} (s : CarveSt) (r c : Nat) (d : Dir) (nb : Nat × Nat)
    (hn : neighborCell size r c d = some nb) (hr : r < size) (hc : c < size) :
    adjFree size (s.clearWall r c d).vw (s.clearWall r c d).hw (r, c) nb := by
  cases d
  case up =>
    rw [neighborCell] at hn
    split at hn
    · rename_i hcond
      injection hn with hn
      subst hn
      refine ⟨hr, hc, by omega, by omega, Or.inr ⟨rfl, Or.inr ⟨by omega, ?_⟩⟩⟩
      show (if r - 1 = r - 1 ∧ c = c then false else s.hw (r - 1) c) = false
      rw [if_pos ⟨rfl, rfl⟩]
    · exact Option.noConfusion hn
  case down =>
    rw [neighborCell] at hn
    split at hn
    · rename_i hcond
      injection hn with hn
      subst hn
      refine ⟨hr, hc, by omega, by omega, Or.inr ⟨rfl, Or.inl ⟨rfl, ?_⟩⟩⟩
      show (if r = r ∧ c = c then false else s.hw r c) = false
      rw [if_pos ⟨rfl, rfl⟩]
    · exact Option.noConfusion hn
  case left =>
    rw [neighborCell] at hn
    split at hn
    · rename_i hcond
      injection hn with hn
      subst hn
      refine ⟨hr, hc, by omega, by omega, Or.inl ⟨rfl, Or.inr ⟨by omega, ?_⟩⟩⟩
      show (if r = r ∧ c - 1 = c - 1 then false else s.vw r (c - 1)) = false
      rw [if_pos ⟨rfl, rfl⟩]
    · exact Option.noConfusion hn
  case right =>
    rw [neighborCell] at hn
    split at hn
    · rename_i hcond
      injection hn with hn
      subst hn
      refine ⟨hr, hc, by omega, by omega, Or.inl ⟨rfl, Or.inl ⟨rfl, ?_⟩⟩⟩
      show (if r = r ∧ c = c then false else s.vw r c) = false
      rw [if_pos ⟨rfl, rfl⟩]
    · exact Option.noConfusion hn

theorem carve_succ (size : Nat) (sh : Nat × Nat → List Dir) (fuel : Nat) (rc : Nat × Nat)
    (s : CarveSt) :
    carve size sh (fuel + 1) rc s = (sh rc).foldl (carveStep size sh fuel rc) (s.visit rc) :=
  rfl

/-- The direction loop of one carver call: assuming the recursion at the
next fuel level satisfies its postcondition, the loop only evolves the
state, ends with every tried in-bounds neighbour visited, keeps every
freshly visited cell closed under in-bounds adjacency, and connects every
freshly visited cell to the root through cleared walls. -/
theorem carveDirs_main (size : Nat) (sh : Nat × Nat → List Dir) (fuel : Nat)
    (IH : ∀ (rc2 : Nat × Nat) (s2 : CarveSt), rc2.1 < size → rc2.2 < size →
      s2.visited rc2 = false → unvisitedCount size s2 ≤ fuel →
      CarvePost size rc2 s2 (carve size sh fuel rc2 s2))
    (rc : Nat × Nat) (hr : rc.1 < size) (hc : rc.2 < size) :
    ∀ (ds : List Dir) (t : CarveSt), unvisitedCount size t ≤ fuel →
      StLe t (ds.foldl (carveStep size sh fuel rc) t) ∧
      (∀ d ∈ ds, ∀ nb, neighborCell size rc.1 rc.2 d = some nb →
        (ds.foldl (carveStep size sh fuel rc) t).visited nb = true) ∧
      (∀ p, t.visited p = false → (ds.foldl (carveStep size sh fuel rc) t).visited p = true →
        ∀ d2 nb, neighborCell size p.1 p.2 d2 = some nb →
          (ds.foldl (carveStep size sh fuel rc) t).visited nb = true) ∧
      (∀ p, t.visited p = false → (ds.foldl (carveStep size sh fuel rc) t).visited p = true →
        ReachFree size (ds.foldl (carveStep size sh fuel rc) t).vw
          (ds.foldl (carveStep size sh fuel rc) t).hw rc p) := by
  intro ds
  induction ds with
  | nil =>
    intro t ht
    refine ⟨stle_refl t, ?_, ?_, ?_⟩
    · intro d hd
      exact absurd hd (List.not_mem_nil d)
    · intro p hp1 hp2
      rw [List.foldl_nil] at hp2
      exact absurd hp2 (by simp [hp1])
    · intro p hp1 hp2
      rw [List.foldl_nil] at hp2
      exact absurd hp2 (by simp [hp1])
  | cons d ds ih =>
    intro t ht
    rw [List.foldl_cons]
    cases hn : neighborCell size rc.1 rc.2 d with
    | none =>
      have ht1 : carveStep size sh fuel rc t d = t := by rw [carveStep, hn]
      rw [ht1]
      obtain ⟨a, b, c2, e⟩ := ih t ht
      refine ⟨a, ?_, c2, e⟩
      intro d2 hd2 nb hnb
      rcases List.mem_cons.mp hd2 with rfl | hd2
      · rw [hn] at hnb
        exact Option.noConfusion hnb
      · exact b d2 hd2 nb hnb
    | some nb =>
      by_cases hv : t.visited nb = true
      · have ht1 : carveStep size sh fuel rc t d = t := by
          rw [carveStep, hn]
          simp [hv]
        rw [ht1]
        obtain ⟨a, b, c2, e⟩ := ih t ht
        refine ⟨a, ?_, c2, e⟩
        intro d2 hd2 nb2 hnb
        rcases List.mem_cons.mp hd2 with rfl | hd2
        · rw [hn] at hnb
          injection hnb with hnb
          subst hnb
          exact a.1 nb hv
        · exact b d2 hd2 nb2 hnb
      · have hvf : t.visited nb = false := by
          cases hx : t.visited nb
          · rfl
          · exact absurd hx hv
        have ht1 : carveStep size sh fuel rc t d =
            carve size sh fuel nb (t.clearWall rc.1 rc.2 d) := by
          rw [carveStep, hn]
          simp [hvf]
        rw [ht1]
        have hnbb := neighborCell_bounds hn
        have hclv : (t.clearWall rc.1 rc.2 d).visited nb = false := by
          rw [clearWall_visited]
          exact hvf
        have hcount : unvisitedCount size (t.clearWall rc.1 rc.2 d) ≤ fuel := by
          rw [unvisitedCount_congr size _ t (clearWall_visited t rc.1 rc.2 d)]
          exact ht
        obtain ⟨Pa, Pb, Pc, Pd⟩ := IH nb (t.clearWall rc.1 rc.2 d) hnbb.1 hnbb.2 hclv hcount
        have hcount1 : unvisitedCount size (carve size sh fuel nb (t.clearWall rc.1 rc.2 d)) ≤
            fuel := le_trans (unvisitedCount_mono size Pa) hcount
        obtain ⟨Qa, Qb, Qc, Qd⟩ := ih (carve size sh fuel nb (t.clearWall rc.1 rc.2 d)) hcount1
        have hle_t_t1 : StLe t (carve size sh fuel nb (t.clearWall rc.1 rc.2 d)) :=
          stle_trans (stle_clearWall t rc.1 rc.2 d) Pa
        refine ⟨stle_trans hle_t_t1 Qa, ?_, ?_, ?_⟩
        · intro d2 hd2 nb2 hnb2
          rcases List.mem_cons.mp hd2 with rfl | hd2
          · rw [hn] at hnb2
            injection hnb2 with h
            subst h
            exact Qa.1 nb Pb
          · exact Qb d2 hd2 nb2 hnb2
        · intro p hp1 hp2 d2 nb2 hnb2
          by_cases hpt1 : (carve size sh fuel nb (t.clearWall rc.1 rc.2 d)).visited p = true
          · have hfr : (t.clearWall rc.1 rc.2 d).visited p = false := by
              rw [clearWall_visited]
              exact hp1
            exact Qa.1 nb2 (Pc p hfr hpt1 d2 nb2 hnb2)
          · have hfr1 : (carve size sh fuel nb (t.clearWall rc.1 rc.2 d)).visited p = false := by
              cases hx : (carve size sh fuel nb (t.clearWall rc.1 rc.2 d)).visited p
              · rfl
              · exact absurd hx hpt1
            exact Qc p hfr1 hp2 d2 nb2 hnb2
        · intro p hp1 hp2
          by_cases hpt1 : (carve size sh fuel nb (t.clearWall rc.1 rc.2 d)).visited p = true
          · have hfr : (t.clearWall rc.1 rc.2 d).visited p = false := by
              rw [clearWall_visited]
              exact hp1
            have hreach2 : ReachFree size
                (List.foldl (carveStep size sh fuel rc)
                  (carve size sh fuel nb (t.clearWall rc.1 rc.2 d)) ds).vw
                (List.foldl (carveStep size sh fuel rc)
                  (carve size sh fuel nb (t.clearWall rc.1 rc.2 d)) ds).hw nb p :=
              reachFree_mono Qa.2.1 Qa.2.2 (Pd p hfr hpt1)
            have hadj := @clearWall_adjFree size t rc.1 rc.2 d nb hn hr hc
            have hadj2 := adjFree_mono
              (fun a b h => Pa.2.1 a b (Qa.2.1 a b h))
              (fun a b h => Pa.2.2 a b (Qa.2.2 a b h)) hadj
            exact reachFree_trans (reachFree_single hadj2) hreach2
          · have hfr1 : (carve size sh fuel nb (t.clearWall rc.1 rc.2 d)).visited p = false := by
              cases hx : (carve size sh fuel nb (t.clearWall rc.1 rc.2 d)).visited p
              · rfl
              · exact absurd hx hpt1
            exact Qd p hfr1 hp2

/-- Postcondition of the carver: one call rooted at an unvisited in-bounds
cell, with fuel at least the number of unvisited cells and a shuffle
oracle that offers every direction, evolves the state monotonically,
visits the root, leaves every freshly visited cell closed under in-bounds
adjacency, and connects every freshly visited cell to the root. -/
theorem carve_main (size : Nat) (sh : Nat × Nat → List Dir) (hsh : Covers sh) :
    ∀ (fuel : Nat) (rc : Nat × Nat) (s : CarveSt), rc.1 < size → rc.2 < size →
      s.visited rc = false → unvisitedCount size s ≤ fuel →
      CarvePost size rc s (carve size sh fuel rc s) := by
  intro fuel
  induction fuel with
  | zero =>
    intro rc s hr hc hv hcount
    exfalso
    have hmem : rc ∈ (gridCells size).filter (fun p => s.visited p = false) :=
      Finset.mem_filter.mpr
        ⟨by simp [gridCells, Finset.mem_product, Finset.mem_range, hr, hc], hv⟩
    have hpos := Finset.card_pos.mpr ⟨rc, hmem⟩
    unfold unvisitedCount at hcount
    omega
  | succ fuel ih =>
    intro rc s hr hc hv hcount
    rw [carve_succ]
    have hcv : unvisitedCount size (s.visit rc) ≤ fuel := by
      have := unvisitedCount_visit_lt size s rc hr hc hv
      omega
    obtain ⟨Fa, Fb, Fc, Fd⟩ :=
      carveDirs_main size sh fuel (fun rc2 s2 a b c d => ih rc2 s2 a b c d) rc hr hc
        (sh rc) (s.visit rc) hcv
    refine ⟨stle_trans (stle_visit s rc) Fa, Fa.1 rc (visit_self s rc), ?_, ?_⟩
    · intro p hp1 hp2 d2 nb hnb
      by_cases hprc : p = rc
      · subst hprc
        exact Fb d2 (hsh p d2) nb hnb
      · have hfr : (s.visit rc).visited p = false := by
          rw [visit_other s rc p hprc]
          exact hp1
        exact Fc p hfr hp2 d2 nb hnb
    · intro p hp1 hp2
      by_cases hprc : p = rc
      · subst hprc
        exact ReachFree.refl p
      · have hfr : (s.visit rc).visited p = false := by
          rw [visit_other s rc p hprc]
          exact hp1
        exact Fd p hfr hp2

/-- A nonempty visited set that contains (0,0) and is closed under
in-bounds adjacency covers the whole grid. -/
theorem visited_all (size : Nat) (s : CarveSt) (h00 : s.visited (0, 0) = true)
    (hcl : ∀ (p : Nat × Nat), s.visited p = true →
      ∀ d nb, neighborCell size p.1 p.2 d = some nb → s.visited nb = true) :
    ∀ (r c : Nat), r < size → c < size → s.visited (r, c) = true := by
  have key : ∀ (n r c : Nat), r + c = n → r < size → c < size → s.visited (r, c) = true := by
    intro n
    induction n using Nat.strong_induction_on with
    | _ n ihn =>
      intro r c hrc hr hc
      cases r with
      | zero =>
        cases c with
        | zero => exact h00
        | succ m =>
          have hprev : s.visited (0, m) = true :=
            ihn (0 + m) (by omega) 0 m rfl hr (by omega)
          exact hcl (0, m) hprev Dir.right (0, m + 1) (by simp [neighborCell, hr, hc])
      | succ a =>
        have hprev : s.visited (a, c) = true :=
          ihn (a + c) (by omega) a c rfl (by omega) hc
        exact hcl (a, c) hprev Dir.down (a + 1, c) (by simp [neighborCell, hr, hc])
  intro r c hr hc
  exact key (r + c) r c rfl hr hc

/-- C1: for any board size at least 1, any shuffle order offering all four
directions at every cell, and any noise draws, the wall-free graph of the
generated walls is connected: every in-bounds cell reaches every other by
orthogonal wall-free steps. -/
theorem C1_generated_walls_connected (size : Nat) (sh : Nat × Nat → List Dir)
    (brv brh : Nat → Nat → Bool) (hsz : 1 ≤ size) (hsh : Covers sh)
    (u v : Nat × Nat) (hu1 : u.1 < size) (hu2 : u.2 < size)
    (hv1 : v.1 < size) (hv2 : v.2 < size) :
    ReachFree size (generate_walls size sh brv brh).1 (generate_walls size sh brv brh).2
      u v := by
  have hcount0 : unvisitedCount size initCarve ≤ size * size := by
    unfold unvisitedCount
    have hfe : (gridCells size).filter (fun p => initCarve.visited p = false) =
        gridCells size := Finset.filter_true_of_mem (fun p _ => rfl)
    rw [hfe, gridCells, Finset.card_product, Finset.card_range]
  obtain ⟨Pa, Pb, Pc, Pd⟩ :=
    carve_main size sh hsh (size * size) (0, 0) initCarve (by omega) (by omega) rfl hcount0
  have hall : ∀ (r c : Nat), r < size → c < size →
      (carve size sh (size * size) (0, 0) initCarve).visited (r, c) = true := by
    apply visited_all size _ Pb
    intro p hp d nb hnb
    exact Pc p rfl hp d nb hnb
  have hreach : ∀ (w : Nat × Nat), w.1 < size → w.2 < size →
      ReachFree size (carve size sh (size * size) (0, 0) initCarve).vw
        (carve size sh (size * size) (0, 0) initCarve).hw (0, 0) w := by
    intro w h1 h2
    exact Pd w rfl (hall w.1 w.2 h1 h2)
  have hnv : ∀ a b, (generate_walls size sh brv brh).1 a b = true →
      (carve size sh (size * size) (0, 0) initCarve).vw a b = true := by
    intro a b h
    simp only [generate_walls, Bool.and_eq_true] at h
    exact h.1
  have hnh : ∀ a b, (generate_walls size sh brv brh).2 a b = true →
      (carve size sh (size * size) (0, 0) initCarve).hw a b = true := by
    intro a b h
    simp only [generate_walls, Bool.and_eq_true] at h
    exact h.1
  exact reachFree_trans (reachFree_symm (reachFree_mono hnv hnh (hreach u hu1 hu2)))
    (reachFree_mono hnv hnh (hreach v hv1 hv2))

/-- Witness for C1 on a 2 by 2 board with the constant shuffle order and
no noise: the corner (1,1) is reachable from (0,0). -/
theorem C1_witness :
    (1 ≤ 2 ∧ Covers shConst ∧ (0 : Nat) < 2 ∧ (1 : Nat) < 2) ∧
    ReachFree 2 (generate_walls 2 shConst brNone brNone).1
      (generate_walls 2 shConst brNone brNone).2 (0, 0) (1, 1) :=
  ⟨⟨by decide, fun p d => by cases d <;> simp [shConst], by decide, by decide⟩,
    C1_generated_walls_connected 2 shConst brNone brNone (by decide)
      (fun p d => by cases d <;> simp [shConst]) (0, 0) (1, 1) (by decide) (by decide)
      (by decide) (by decide)⟩

/-- C10: apply_attacks never changes the gold pickups on the board nor any
player's gold; in particular a knocked-back defender collects nothing. -/
theorem C10_apply_attacks_preserves_gold (g : Game) (attacker : Player) (moved : Bool)
    (rng : Nat → Nat) :
    (apply_attacks g attacker moved rng).gold_positions = g.gold_positions ∧
    ∀ (i : Nat), ((apply_attacks g attacker moved rng).players[i]?).map Player.gold =
      (g.players[i]?).map Player.gold := by
  obtain ⟨⟨_, _, _, hgp, _, _⟩, _, hgold⟩ :=
    foldDefenders_effects attacker.position.1 attacker.position.2
      (if moved then attacker.damage else attacker.damage * 2)
      (if moved then attacker.knockback_strength else attacker.knockback_strength * 2)
      attacker.id rng (List.range g.players.length) (g, 0)
  exact ⟨hgp, hgold⟩

end BoardGame
